import Mathlib

/-!
# AST lowering of the toy compiler (`src/visitors/compiler.cpp`)

A shallow embedding of `Compiler::visit(...)` and of the lowering phase of
`Compiler::compile` (lines 149-172).

The LLVM builder is an external library.  Every call of the visitor that asks
it to create a function, a basic block, a global or an instruction, or to move
the insertion point, is recorded in call order in `Compiler.trace`; the handle
such a call returns is a symbolic `Value` (the result of the request with a
given number).  Lookups (`ConstantInt::get`, `getIntNTy`, `getFunction`,
`GetInsertBlock`) are not requests and leave no record.  Whatever the library
does behind a request (constant folding, name uniquing, assertions on
ill-formed requests) is outside the embedding.

The visitor's mutable members (`env`, the builder's insertion block, the block
list of `mainFunction`, the module's functions) and the file-level `typeMap`
are fields of the explicit state `Compiler`.
-/

namespace LlvmLearning

/-! ## Data model -/

/-- Token kinds (`TokenTypes` of `ir/token.hpp`).  Only the enumerators that
`compiler.cpp` names are known; `OTHER n` stands for the remaining ones. -/
inductive TokenTypes
  | I8 | I16 | I32 | I64 | U8 | U16 | U32 | U64
  | PLUS | MINUS | STAR | SLASH
  | EQUAL_EQUAL | NOT_EQUAL | LESS | LESS_EQUAL | GREATER | GREATER_EQUAL
  | OTHER (n : Nat)
  deriving DecidableEq

/-- Handles of type `llvm::Value *` as the visitor sees them. -/
inductive Value
  /-- The null pointer `nullptr`. -/
  | null
  /-- The constant `ConstantInt::get(ctx, APInt(bitWidth, ...))` holding `bits`. -/
  | constInt (bitWidth : Nat) (bits : Nat)
  /-- The result of the instruction created by request number `id`. -/
  | inst (id : Nat)
  /-- The pointer to the global string created by request number `id`. -/
  | globalString (id : Nat)
  deriving DecidableEq

/-- Expression nodes (`ir/expressions.hpp`); of the operator token only its
`type` is read by the visitor. -/
inductive Expression
  | IntExpression (value : Int)
  | VarExpression (name : String)
  | BinaryExpression (left : Expression) (op : TokenTypes) (right : Expression)
  deriving DecidableEq

/-- Statement nodes (`ir/statements.hpp`). -/
inductive Statement
  | ExpressionStatement (expression : Expression)
  | PrintStatement (expression : Expression)
  | LetStatement (name : String) (type : TokenTypes) (expression : Expression)
  | BlockStatement (statements : List Statement)
  | IfStatement (condition : Expression) (thenBranch : Statement)
      (elseBranch : Option Statement)

/-- The ten builder methods `visit(BinaryExpression&)` calls, by name
(`CreateAdd`, ..., `CreateICmpSGE`). -/
inductive BinaryKind
  | Add | Sub | Mul | SDiv
  | ICmpEQ | ICmpNE | ICmpSLT | ICmpSLE | ICmpSGT | ICmpSGE
  deriving DecidableEq

/-- Instructions the visitor asks the builder to create. -/
inductive Instruction
  | binary (kind : BinaryKind) (lhs rhs : Value) (name : String)
  | intCast (value : Value) (bitWidth : Nat) (isSigned : Bool)
  | call (callee : Option String) (args : List Value) (name : String)
  | condBr (cond : Value) (ifTrue ifFalse : Nat)
  | br (dest : Nat)
  | retVoid
  deriving DecidableEq

/-- One request to the backend, as recorded in the trace. -/
inductive Emission
  /-- The call `Function::Create(type, ExternalLinkage, name, module)`:
  `params` are the fixed parameter types. -/
  | declareFunction (name : String) (returnType : String) (params : List String)
      (isVarArg : Bool)
  /-- The call `BasicBlock::Create(ctx, label, parent)`; `inMain` tells whether
  `mainFunction` was passed as parent. -/
  | createBlock (id : Nat) (label : String) (inMain : Bool)
  /-- The call `builder->SetInsertPoint(block)`. -/
  | setInsertPoint (block : Nat)
  /-- The call `builder->CreateGlobalStringPtr(str)`. -/
  | globalStringPtr (id : Nat) (str : String)
  /-- A `builder->Create...` call for an instruction, inserted into `block`
  (the insertion block at that moment). -/
  | instruction (block : Option Nat) (id : Nat) (i : Instruction)
  deriving DecidableEq

/-- Failures of lowering. -/
inductive LowerError
  /-- The error of `Environment::get` the specification names. -/
  | UnboundNameError (name : String)
  /-- A member access through a null `env`. -/
  | NullEnvironment
  deriving DecidableEq

/-- Modelled from the spec: the class `Environment` (`environment.hpp` is not
among the sources): a mutable mapping from name to lowered value plus a
reference to the enclosing Environment (none for the outermost scope).  `id`
is the identity (address) of the object. -/
inductive Environment
  | mk (id : Nat) (values : List (String × Value)) (enclosing : Option Environment)

namespace Environment

/-- Identity of the scope object. -/
def id : Environment → Nat
  | mk i _ _ => i

/-- Bindings of this scope only. -/
def values : Environment → List (String × Value)
  | mk _ vs _ => vs

/-- The member `enclosing`. -/
def enclosing : Environment → Option Environment
  | mk _ _ e => e

/-- Modelled from the spec: `Environment::define(name, value)`, which
inserts/overwrites in the current scope only. -/
def define : Environment → String → Value → Environment
  | mk i vs e, name, value => mk i ((name, value) :: vs.filter (fun p => p.1 != name)) e

/-- Modelled from the spec: `Environment::get(name)`, which searches the
current scope, then each enclosing scope in order, and fails with
`UnboundNameError` when the chain is exhausted. -/
def get : Environment → String → Except LowerError Value
  | mk _ vs (some outer), name =>
    match vs.lookup name with
    | some v => .ok v
    | none => outer.get name
  | mk _ vs none, name =>
    match vs.lookup name with
    | some v => .ok v
    | none => .error (.UnboundNameError name)

/-- Equality of scope chains is decidable. -/
def decEq : (a b : Environment) → Decidable (a = b)
  | mk i vs none, mk j ws none =>
    if h : i = j ∧ vs = ws then isTrue (by rw [h.1, h.2])
    else isFalse (fun h1 => h (by cases h1; exact ⟨rfl, rfl⟩))
  | mk i vs (some a), mk j ws (some b) =>
    match decEq a b with
    | isTrue hab =>
      if h : i = j ∧ vs = ws then isTrue (by rw [h.1, h.2, hab])
      else isFalse (fun h1 => h (by cases h1; exact ⟨rfl, rfl⟩))
    | isFalse hab => isFalse (fun h1 => hab (by cases h1; rfl))
  | mk _ _ none, mk _ _ (some _) => isFalse (fun h1 => by cases h1)
  | mk _ _ (some _), mk _ _ none => isFalse (fun h1 => by cases h1)

instance : DecidableEq Environment := decEq

end Environment

/-- The initial contents of the file-level table `typeMap` (lines 7-16). -/
def typeMap : List (TokenTypes × (Nat × Bool)) :=
  [ (.I8, (8, true)), (.I16, (16, true)), (.I32, (32, true)), (.I64, (64, true)),
    (.U8, (8, false)), (.U16, (16, false)), (.U32, (32, false)), (.U64, (64, false)) ]

/-- The expression `m[key]` of `std::map`: the mapped pair, and the map after
the access; a missing key is inserted with the value-initialised pair
`{0, false}`. -/
def typeMapIndex (m : List (TokenTypes × (Nat × Bool))) (key : TokenTypes) :
    (Nat × Bool) × List (TokenTypes × (Nat × Bool)) :=
  match m.lookup key with
  | some p => (p, m)
  | none => ((0, false), m ++ [(key, (0, false))])

/-- The visitor object together with the backend state it drives. -/
structure Compiler where
  /-- The member `env` (a pointer; `none` is null). -/
  env : Option Environment
  /-- The process-wide `typeMap`. -/
  typeMap : List (TokenTypes × (Nat × Bool))
  /-- Every request made to the backend so far, oldest first. -/
  trace : List Emission
  /-- The block `builder->GetInsertBlock()`. -/
  insertBlock : Option Nat
  /-- Number of the next backend request that creates a handle. -/
  nextId : Nat
  /-- Names of the functions of `module`. -/
  functions : List String
  /-- The basic block list of `mainFunction`. -/
  mainBlocks : List Nat
  /-- Address of the next `Environment` allocated with `new`. -/
  nextEnv : Nat
  deriving DecidableEq

/-- Outcome of a visit: the returned value or the failure, and the state at
that point. -/
abbrev Result := Except LowerError Value × Compiler

namespace Compiler

/-- A `builder->Create...` call: inserts `i` in the insertion block.  The
returned handle is `Value.inst c.nextId`. -/
def insert (c : Compiler) (i : Instruction) : Compiler :=
  { c with trace := c.trace ++ [.instruction c.insertBlock c.nextId i],
           nextId := c.nextId + 1 }

/-- The call `BasicBlock::Create(*context, label, parent)`; with `inMain` the
parent is `mainFunction` and the block is appended to its block list.  The
new block is `c.nextId`. -/
def createBlock (c : Compiler) (label : String) (inMain : Bool) : Compiler :=
  { c with trace := c.trace ++ [.createBlock c.nextId label inMain],
           mainBlocks := if inMain then c.mainBlocks ++ [c.nextId] else c.mainBlocks,
           nextId := c.nextId + 1 }

/-- The call `mainFunction->getBasicBlockList().push_back(block)`. -/
def pushBlock (c : Compiler) (block : Nat) : Compiler :=
  { c with mainBlocks := c.mainBlocks ++ [block] }

/-- The call `builder->SetInsertPoint(block)`. -/
def setInsertPoint (c : Compiler) (block : Nat) : Compiler :=
  { c with trace := c.trace ++ [.setInsertPoint block], insertBlock := some block }

/-- The call `builder->CreateGlobalStringPtr(str)`; the returned handle is
`Value.globalString c.nextId`. -/
def createGlobalStringPtr (c : Compiler) (str : String) : Compiler :=
  { c with trace := c.trace ++ [.globalStringPtr c.nextId str], nextId := c.nextId + 1 }

/-- The call `module->getFunction(name)`. -/
def getFunction (c : Compiler) (name : String) : Option String :=
  if name ∈ c.functions then some name else none

/-- The call `llvm::Function::Create(type, ExternalLinkage, name, module)`. -/
def createFunction (c : Compiler) (name returnType : String) (params : List String)
    (isVarArg : Bool) : Compiler :=
  { c with trace := c.trace ++ [.declareFunction name returnType params isVarArg],
           functions := c.functions ++ [name] }

/-- Lines 101-102: `Environment *newEnv = new Environment(env); env = newEnv;`. -/
def enterScope (c : Compiler) : Compiler :=
  { c with env := some (.mk c.nextEnv [] c.env), nextEnv := c.nextEnv + 1 }

end Compiler

/-! ## Expression lowering -/

/-- The `switch (expression.op.type)` of lines 34-58: the builder method and
the name hint of each case; `none` is the `default` case. -/
def binaryCase : TokenTypes → Option (BinaryKind × String)
  | .PLUS => some (.Add, "addtmp")
  | .MINUS => some (.Sub, "subtmp")
  | .STAR => some (.Mul, "multmp")
  | .SLASH => some (.SDiv, "divtmp")
  | .EQUAL_EQUAL => some (.ICmpEQ, "eqtmp")
  | .NOT_EQUAL => some (.ICmpNE, "netmp")
  | .LESS => some (.ICmpSLT, "lttmp")
  | .LESS_EQUAL => some (.ICmpSLE, "letmp")
  | .GREATER => some (.ICmpSGT, "gttmp")
  | .GREATER_EQUAL => some (.ICmpSGE, "getmp")
  | _ => none

/-- The call `env->get(name)` through the member pointer `env`. -/
def envGet (env : Option Environment) (name : String) : Except LowerError Value :=
  match env with
  | some e => e.get name
  | none => .error .NullEnvironment

/-- The three overloads `Compiler::visit` for expressions (lines 18-59). -/
def visitExpr : Expression → Compiler → Result
  | .IntExpression value, c =>
    (.ok (.constInt 64 (value % 2 ^ 64).toNat), c)
  | .VarExpression name, c =>
    (envGet c.env name, c)
  | .BinaryExpression l op r, c =>
    match visitExpr l c with
    | (.error e, c1) => (.error e, c1)
    | (.ok left, c1) =>
      match visitExpr r c1 with
      | (.error e, c2) => (.error e, c2)
      | (.ok right, c2) =>
        match binaryCase op with
        | some (kind, name) =>
          (.ok (.inst c2.nextId), c2.insert (.binary kind left right name))
        | none => (.ok .null, c2)

/-! ## Statement lowering -/

/-- Lines 118-124 of `visit(IfStatement&)`: the blocks "then" (in
`mainFunction`), "else" and "ifcont" (both without parent) are created, in
this order, as `c.nextId`, `c.nextId + 1` and `c.nextId + 2`; the conditional
branch on `condition` to "then"/"else" is emitted and the builder is pointed
at "then". -/
def beginIf (c : Compiler) (condition : Value) : Compiler :=
  let thenBlock := c.nextId
  let elseBlock := c.nextId + 1
  let c2 := ((c.createBlock "then" true).createBlock "else" false).createBlock "ifcont" false
  (c2.insert (.condBr condition thenBlock elseBlock)).setInsertPoint thenBlock

/-- Lines 133-134: the else block is appended to the block list of
`mainFunction` and becomes the insertion block. -/
def beginElse (c : Compiler) (elseBlock : Nat) : Compiler :=
  (c.pushBlock elseBlock).setInsertPoint elseBlock

mutual
/-- The five overloads `Compiler::visit` for statements (lines 61-147). -/
def visitStmt : Statement → Compiler → Result
  | .ExpressionStatement e, c => visitExpr e c
  | .PrintStatement e, c =>
    let printFunc := c.getFunction "printf"
    match visitExpr e c with
    | (.error err, c1) => (.error err, c1)
    | (.ok value, c1) =>
      let fmt := Value.globalString c1.nextId
      let c2 := c1.createGlobalStringPtr "%d\n"
      (.ok .null, c2.insert (.call printFunc [fmt, value] "printf"))
  | .LetStatement name type e, c =>
    let looked := typeMapIndex c.typeMap type
    match visitExpr e { c with typeMap := looked.2 } with
    | (.error err, c1) => (.error err, c1)
    | (.ok value, c1) =>
      let newValue := Value.inst c1.nextId
      let c2 := c1.insert (.intCast value looked.1.1 looked.1.2)
      match c2.env with
      | none => (.error .NullEnvironment, c2)
      | some env => (.ok newValue, { c2 with env := some (env.define name newValue) })
  | .BlockStatement statements, c =>
    match visitStmts statements c.enterScope with
    | (.error err, c1) => (.error err, c1)
    | (.ok _, c1) =>
      match c1.env with
      | none => (.error .NullEnvironment, c1)
      | some env => (.ok .null, { c1 with env := env.enclosing })
  | .IfStatement cond thenBranch elseBranch, c =>
    match visitExpr cond c with
    | (.error err, c1) => (.error err, c1)
    | (.ok condition, c1) =>
      let elseBlock := c1.nextId + 1
      let mergeBlock := c1.nextId + 2
      match visitStmt thenBranch (beginIf c1 condition) with
      | (.error err, c4) => (.error err, c4)
      | (.ok _, c4) =>
        match visitElse elseBranch elseBlock mergeBlock (c4.insert (.br mergeBlock)) with
        | (.error err, c5) => (.error err, c5)
        | (.ok _, c5) =>
          (.ok .null, (c5.pushBlock mergeBlock).setInsertPoint mergeBlock)
/-- Lines 130-141, `if (statement.elseBranch) { ... }` inside
`visit(IfStatement&)`; without an else branch nothing is done. -/
def visitElse : Option Statement → Nat → Nat → Compiler → Result
  | some stmt, elseBlock, mergeBlock, c =>
    match visitStmt stmt (beginElse c elseBlock) with
    | (.error err, c1) => (.error err, c1)
    | (.ok _, c1) => (.ok .null, c1.insert (.br mergeBlock))
  | none, _, _, c => (.ok .null, c)
/-- The loops of lines 104-107 and 166-169: each statement is visited in list
order, its value dropped. -/
def visitStmts : List Statement → Compiler → Result
  | [], c => (.ok .null, c)
  | stmt :: rest, c =>
    match visitStmt stmt c with
    | (.error err, c1) => (.error err, c1)
    | (.ok _, c1) => visitStmts rest c1
end

/-! ## Driver -/

/-- Modelled from the spec: the state of a freshly constructed `Compiler`
(the constructor is in `compiler.hpp`, not among the sources): a fresh
context, module and builder, and the global Environment as current scope.
`tm` is the process-wide `typeMap` at that moment. -/
def Compiler.fresh (tm : List (TokenTypes × (Nat × Bool))) : Compiler :=
  { env := some (.mk 0 [] none), typeMap := tm, trace := [], insertBlock := none,
    nextId := 0, functions := [], mainBlocks := [], nextEnv := 1 }

/-- Lines 153-164 of `Compiler::compile`: `printf` and `main` are created,
`main` gets its entry block and the builder is pointed at it. -/
def compileSetup (c : Compiler) : Compiler :=
  let c1 := c.createFunction "printf" "i32" ["i8*"] true
  let c2 := { c1.createFunction "main" "void" [] false with mainBlocks := [] }
  (c2.createBlock "entry" true).setInsertPoint c2.nextId

/-- The lowering phase of `Compiler::compile` (lines 149-172); what follows
it (printing, target selection, the object file) is not embedded. -/
def compile (statements : List Statement) (c : Compiler) :
    Except LowerError Unit × Compiler :=
  match visitStmts statements (compileSetup c) with
  | (.error err, c1) => (.error err, c1)
  | (.ok _, c1) => (.ok (), c1.insert .retVoid)

/-- What was emitted between two states: the part of the later trace beyond
the length of the earlier one. -/
def emitted (before after : Compiler) : List Emission :=
  after.trace.drop before.trace.length

/-- Two values of the pointer `env` denote the same scope object with the same
enclosing chain (the bindings of the scope itself may differ). -/
def SameScope : Option Environment → Option Environment → Prop
  | none, none => True
  | some a, some b => a.id = b.id ∧ a.enclosing = b.enclosing
  | _, _ => False

instance (a b : Option Environment) : Decidable (SameScope a b) := by
  unfold SameScope; split <;> infer_instance

/-- The bindings of a scope chain, innermost scope first. -/
def Environment.scopes : Environment → List (List (String × Value))
  | .mk _ vs none => [vs]
  | .mk _ vs (some outer) => vs :: outer.scopes

/-- The states in which the statements of a list are visited, in list order:
each statement starts from the state the previous one left. -/
def statesBefore : List Statement → Compiler → List Compiler
  | [], _ => []
  | stmt :: rest, c => c :: statesBefore rest (visitStmt stmt c).2

/-- The traces of the statements of a list, one after the other, each lowered
from the state the previous one left. -/
def stmtTraces : List Statement → Compiler → List Emission
  | [], _ => []
  | stmt :: rest, c =>
    emitted c (visitStmt stmt c).2 ++ stmtTraces rest (visitStmt stmt c).2

/-- The instructions of the trace that were inserted into block `b`, oldest
first. -/
def blockInstructions (c : Compiler) (b : Nat) : List Instruction :=
  c.trace.filterMap fun ev =>
    match ev with
    | .instruction (some b1) _ i => if b1 = b then some i else none
    | _ => none

/-- What every statement visit keeps: the trace only grows, the module's
functions stay, and a visit that returns leaves `env` at the same scope. -/
def StmtInv (c : Compiler) (r : Result) : Prop :=
  (∃ t, r.2.trace = c.trace ++ t) ∧ r.2.functions = c.functions ∧
    (∀ v, r.1 = .ok v → SameScope c.env r.2.env)

/-! ## Vocabulary of the claims on instructions -/

/-- The instructions of a trace, oldest first, whatever block they went to. -/
def instructionsOf (t : List Emission) : List Instruction :=
  t.filterMap fun ev =>
    match ev with
    | .instruction _ _ i => some i
    | _ => none

/-- The kind of an instruction: which builder request made it, without its
operands. -/
inductive InstructionKind
  | binary (kind : BinaryKind)
  | intCast (bitWidth : Nat) (isSigned : Bool)
  | call
  | condBr
  | br
  | retVoid
  deriving DecidableEq

/-- The kind of an instruction. -/
def Instruction.kind : Instruction → InstructionKind
  | .binary k _ _ _ => .binary k
  | .intCast _ w s => .intCast w s
  | .call _ _ _ => .call
  | .condBr _ _ _ => .condBr
  | .br _ => .br
  | .retVoid => .retVoid

/-- The ten operator tokens the specification lists for `Binary`:
`+ - * / == != < <= > >=`. -/
def handledOperators : List TokenTypes :=
  [.PLUS, .MINUS, .STAR, .SLASH, .EQUAL_EQUAL, .NOT_EQUAL, .LESS, .LESS_EQUAL, .GREATER,
   .GREATER_EQUAL]

/-- The six comparison operator tokens `== != < <= > >=`. -/
def comparisonOperators : List TokenTypes :=
  [.EQUAL_EQUAL, .NOT_EQUAL, .LESS, .LESS_EQUAL, .GREATER, .GREATER_EQUAL]

/-- The program of scenario A: `let x: i32 = 2; let y: i32 = 3; print x + y;`. -/
def scenarioA : List Statement :=
  [.LetStatement "x" .I32 (.IntExpression 2), .LetStatement "y" .I32 (.IntExpression 3),
   .PrintStatement (.BinaryExpression (.VarExpression "x") .PLUS (.VarExpression "y"))]

/-- The instruction kinds of scenario A in the words of the specification,
in its order: add, cast x to 32-bit signed, cast y to 32-bit signed,
add(x,y), display-call (the two constants it lists first are operands, not
instructions). -/
def scenarioAClaimedKinds : List InstructionKind :=
  [.binary .Add, .intCast 32 true, .intCast 32 true, .binary .Add, .call]

/-- The value of the `bitWidth`-bit pattern `bits` read as a signed integer
(two's complement), as `APInt::getSExtValue` reads it. -/
def signedValue (bitWidth bits : Nat) : Int :=
  if bits < 2 ^ (bitWidth - 1) then (bits : Int) else (bits : Int) - 2 ^ bitWidth

/-- The number of Binary nodes of an expression whose operator is one of the
ten handled operators. -/
def Expression.handledBinaryCount : Expression → Nat
  | .IntExpression _ => 0
  | .VarExpression _ => 0
  | .BinaryExpression l op r =>
    l.handledBinaryCount + r.handledBinaryCount + (if op ∈ handledOperators then 1 else 0)

/-- The names of the Variable nodes of an expression, left to right. -/
def Expression.variables : Expression → List String
  | .IntExpression _ => []
  | .VarExpression name => [name]
  | .BinaryExpression l _ r => l.variables ++ r.variables

/-! ## Vocabulary of the determinism claim -/

/-- The state `c` with the process-wide type table replaced by `tm`. -/
def Compiler.withTable (c : Compiler) (tm : List (TokenTypes × (Nat × Bool))) : Compiler :=
  { c with typeMap := tm }

/-- Two contents of the type table answer every access `m[key]` with the same
pair. -/
def TablesAgree (tm tm1 : List (TokenTypes × (Nat × Bool))) : Prop :=
  ∀ key, (typeMapIndex tm key).1 = (typeMapIndex tm1 key).1

/-- A visit `f` from `c` leaves a table that agrees with the one it started
from, and from any agreeing table it returns the same result and the same
state, up to a table that agrees again. -/
def RunsAlike (f : Compiler → Result) (c : Compiler) : Prop :=
  TablesAgree c.typeMap (f c).2.typeMap ∧
  ∀ tm1, TablesAgree c.typeMap tm1 →
    ∃ tm2, f (c.withTable tm1) = ((f c).1, (f c).2.withTable tm2) ∧
      TablesAgree (f c).2.typeMap tm2

/-! ## Vocabulary of the claim on basic blocks -/

/-- Terminator instructions: the branches and the return. -/
def Instruction.isTerminator : Instruction → Bool
  | .condBr _ _ _ => true
  | .br _ => true
  | .retVoid => true
  | _ => false

/-- The instructions of a trace that were inserted into block `b`, oldest
first (`blockInstructions c b` is `instructionsIn c.trace b`). -/
def instructionsIn (t : List Emission) (b : Nat) : List Instruction :=
  t.filterMap fun ev =>
    match ev with
    | .instruction (some b1) _ i => if b1 = b then some i else none
    | _ => none

/-- The blocks named as targets by the branches of a trace. -/
def branchTargets : List Emission → List Nat
  | [] => []
  | .instruction _ _ (.condBr _ ifTrue ifFalse) :: rest => ifTrue :: ifFalse :: branchTargets rest
  | .instruction _ _ (.br dest) :: rest => dest :: branchTargets rest
  | _ :: rest => branchTargets rest

mutual
/-- Every If statement in the statement, at any depth, has an else branch. -/
def allIfsHaveElse : Statement → Bool
  | .ExpressionStatement _ => true
  | .PrintStatement _ => true
  | .LetStatement _ _ _ => true
  | .BlockStatement statements => allIfsHaveElseList statements
  | .IfStatement _ thenBranch (some elseBranch) =>
    allIfsHaveElse thenBranch && allIfsHaveElse elseBranch
  | .IfStatement _ _ none => false
/-- Every If statement in the statements of the list has an else branch. -/
def allIfsHaveElseList : List Statement → Bool
  | [] => true
  | stmt :: rest => allIfsHaveElse stmt && allIfsHaveElseList rest
end

/-- A block's instruction list that consists of non-terminators followed by
one terminator. -/
def Closed (is : List Instruction) : Prop :=
  ∃ body last, is = body ++ [last] ∧ last.isTerminator = true ∧
    ∀ i ∈ body, i.isTerminator = false

/-- The shape of the function under construction, given by a trace, the block
list of `main` and the request counter.  `pending` lists the blocks that were
created without parent and are not yet in the block list; `current` is the block
still open for insertion, if any.  Every instruction went to a block of the
list; the open block holds no terminator and every other block of the list is
closed; every branch target is in the list or pending. -/
structure Shape (pending : List Nat) (current : Option Nat) (trace : List Emission)
    (mainBlocks : List Nat) (nextId : Nat) : Prop where
  main_lt : ∀ b ∈ mainBlocks, b < nextId
  pending_lt : ∀ b ∈ pending, b < nextId
  pending_out : ∀ b ∈ pending, b ∉ mainBlocks
  pending_nodup : pending.Nodup
  in_main : ∀ blk id i, Emission.instruction blk id i ∈ trace → ∃ b, blk = some b ∧ b ∈ mainBlocks
  current_in : ∀ b, current = some b → b ∈ mainBlocks
  current_open : ∀ b, current = some b → ∀ i ∈ instructionsIn trace b, i.isTerminator = false
  others_closed : ∀ b ∈ mainBlocks, current ≠ some b → Closed (instructionsIn trace b)
  targets : ∀ t ∈ branchTargets trace, t ∈ mainBlocks ∨ t ∈ pending

/-- The state has a current insertion block, and with it open the function
under construction has the expected shape. -/
def Open (pending : List Nat) (c : Compiler) : Prop :=
  ∃ cur, c.insertBlock = some cur ∧ Shape pending (some cur) c.trace c.mainBlocks c.nextId

mutual
/-- The states in which the visit of a statement and the visits of the
statements nested in it begin, in visit order; nothing is listed beyond a
visit that fails. -/
def entryStates : Statement → Compiler → List Compiler
  | .ExpressionStatement _, c => [c]
  | .PrintStatement _, c => [c]
  | .LetStatement _ _ _, c => [c]
  | .BlockStatement statements, c => c :: entryStatesList statements c.enterScope
  | .IfStatement cond thenBranch (some elseBranch), c =>
    c :: match visitExpr cond c with
      | (.error _, _) => []
      | (.ok condition, c1) =>
        entryStates thenBranch (beginIf c1 condition) ++
          match visitStmt thenBranch (beginIf c1 condition) with
          | (.error _, _) => []
          | (.ok _, c4) =>
            entryStates elseBranch
              (beginElse (c4.insert (.br (c1.nextId + 2))) (c1.nextId + 1))
  | .IfStatement cond thenBranch none, c =>
    c :: match visitExpr cond c with
      | (.error _, _) => []
      | (.ok condition, c1) => entryStates thenBranch (beginIf c1 condition)
/-- The states in which the visits of the statements of a list, and of the
statements nested in them, begin. -/
def entryStatesList : List Statement → Compiler → List Compiler
  | [], _ => []
  | stmt :: rest, c =>
    entryStates stmt c ++
      match visitStmt stmt c with
      | (.error _, _) => []
      | (.ok _, c1) => entryStatesList rest c1
end

/-- The state of `visit(IfStatement&)` right after line 126, the
`CreateBr(mergeBlock)` that ends the then branch, when the condition and the
then branch lower; this is the state in which lines 128-130 run. -/
def afterThenJump (cond : Expression) (thenBranch : Statement) (c : Compiler) :
    Option Compiler :=
  match visitExpr cond c with
  | (.error _, _) => none
  | (.ok condition, c1) =>
    match visitStmt thenBranch (beginIf c1 condition) with
    | (.error _, _) => none
    | (.ok _, c4) => some (c4.insert (.br (c1.nextId + 2)))

/-! ## General lemmas -/

theorem sameScope_refl (e : Option Environment) : SameScope e e := by
  cases e <;> simp [SameScope]

theorem sameScope_trans {a b c : Option Environment} (h1 : SameScope a b)
    (h2 : SameScope b c) : SameScope a c := by
  cases a <;> cases b <;> cases c <;> simp_all [SameScope]

theorem emitted_append (c c1 : Compiler) (t : List Emission)
    (h : c1.trace = c.trace ++ t) : emitted c c1 = t := by
  simp [emitted, h]

/-- Expression lowering touches only the trace and the request counter. -/
theorem visitExpr_frame (e : Expression) (c : Compiler) :
    ∃ t n, c.nextId ≤ n ∧
      (visitExpr e c).2 = { c with trace := c.trace ++ t, nextId := n } := by
  induction e generalizing c with
  | IntExpression v => exact ⟨[], c.nextId, le_refl _, by simp [visitExpr]⟩
  | VarExpression name => exact ⟨[], c.nextId, le_refl _, by simp [visitExpr]⟩
  | BinaryExpression l op r ihl ihr =>
    obtain ⟨t1, n1, hn1, h1⟩ := ihl c
    rw [visitExpr]
    rcases hl : visitExpr l c with ⟨_ | left, c1⟩
    · rw [hl] at h1; exact ⟨t1, n1, hn1, h1⟩
    · rw [hl] at h1
      simp only at h1 ⊢
      obtain ⟨t2, n2, hn2, h2⟩ := ihr c1
      rcases hr : visitExpr r c1 with ⟨_ | right, c2⟩
      · rw [hr] at h2; simp only at h2 ⊢
        subst h1
        exact ⟨t1 ++ t2, n2, le_trans hn1 hn2, by simp [h2]⟩
      · rw [hr] at h2; simp only at h2 ⊢
        subst h1
        cases hk : binaryCase op with
        | none => exact ⟨t1 ++ t2, n2, le_trans hn1 hn2, by simp [h2]⟩
        | some kn =>
          refine ⟨t1 ++ t2 ++ [.instruction c.insertBlock n2 (.binary kn.1 left right kn.2)],
            n2 + 1, by simp at hn1 hn2; omega, ?_⟩
          simp [h2, Compiler.insert]


@[simp] theorem Environment.id_mk (i : Nat) (vs : List (String × Value))
    (e : Option Environment) : (Environment.mk i vs e).id = i := rfl

@[simp] theorem Environment.values_mk (i : Nat) (vs : List (String × Value))
    (e : Option Environment) : (Environment.mk i vs e).values = vs := rfl

@[simp] theorem Environment.enclosing_mk (i : Nat) (vs : List (String × Value))
    (e : Option Environment) : (Environment.mk i vs e).enclosing = e := rfl

@[simp] theorem Environment.define_id (e : Environment) (n : String) (v : Value) :
    (e.define n v).id = e.id := by
  cases e; rfl

@[simp] theorem Environment.define_enclosing (e : Environment) (n : String) (v : Value) :
    (e.define n v).enclosing = e.enclosing := by
  cases e; rfl

theorem beginIf_trace (c : Compiler) (condition : Value) :
    (beginIf c condition).trace = c.trace ++
      [.createBlock c.nextId "then" true, .createBlock (c.nextId + 1) "else" false,
       .createBlock (c.nextId + 2) "ifcont" false,
       .instruction c.insertBlock (c.nextId + 3) (.condBr condition c.nextId (c.nextId + 1)),
       .setInsertPoint c.nextId] := by
  simp [beginIf, Compiler.createBlock, Compiler.insert, Compiler.setInsertPoint]

theorem stmtInv_of_expr (e : Expression) (c : Compiler) : StmtInv c (visitExpr e c) := by
  obtain ⟨t, n, _, h⟩ := visitExpr_frame e c
  refine ⟨⟨t, by rw [h]⟩, by rw [h], fun _ _ => by rw [h]; exact sameScope_refl _⟩

theorem stmtInv_chain {c c1 : Compiler} {r : Result} (h1 : (∃ t, c1.trace = c.trace ++ t) ∧
    c1.functions = c.functions ∧ SameScope c.env c1.env) (h2 : StmtInv c1 r) : StmtInv c r := by
  obtain ⟨⟨t1, ht1⟩, hf1, hs1⟩ := h1
  obtain ⟨⟨t2, ht2⟩, hf2, hs2⟩ := h2
  exact ⟨⟨t1 ++ t2, by rw [ht2, ht1, List.append_assoc]⟩, by rw [hf2, hf1],
    fun v hv => sameScope_trans hs1 (hs2 v hv)⟩

mutual
theorem visitStmt_inv : ∀ (s : Statement) (c : Compiler), StmtInv c (visitStmt s c)
  | .ExpressionStatement e, c => by
    rw [visitStmt]; exact stmtInv_of_expr e c
  | .PrintStatement e, c => by
    rw [visitStmt]
    obtain ⟨t, n, _, h⟩ := visitExpr_frame e c
    rcases he : visitExpr e c with ⟨err | value, c1⟩ <;> rw [he] at h <;> simp only at h ⊢
    · subst h; exact ⟨⟨t, rfl⟩, rfl, fun _ hv => by simp at hv⟩
    · subst h
      exact ⟨⟨_, by simp [Compiler.insert, Compiler.createGlobalStringPtr]; rfl⟩, rfl,
        fun _ _ => sameScope_refl _⟩
  | .LetStatement name type e, c => by
    rw [visitStmt]
    obtain ⟨t, n, _, h⟩ := visitExpr_frame e { c with typeMap := (typeMapIndex c.typeMap type).2 }
    rcases he : visitExpr e { c with typeMap := (typeMapIndex c.typeMap type).2 }
      with ⟨err | value, c1⟩ <;> rw [he] at h <;> simp only at h ⊢
    · subst h; exact ⟨⟨t, rfl⟩, rfl, fun _ hv => by simp at hv⟩
    · subst h
      cases hc : c.env with
      | none =>
        simp only [Compiler.insert, hc]
        exact ⟨⟨_, (List.append_assoc _ _ _)⟩, rfl, fun _ hv => by simp at hv⟩
      | some env =>
        simp only [Compiler.insert, hc]
        exact ⟨⟨_, (List.append_assoc _ _ _)⟩, rfl, fun _ _ => by simp [hc, SameScope]⟩
  | .BlockStatement ss, c => by
    rw [visitStmt]
    have ih := visitStmts_inv ss c.enterScope
    rcases hs : visitStmts ss c.enterScope with ⟨err | v, c1⟩ <;> rw [hs] at ih <;> simp only
    · exact ⟨ih.1, ih.2.1, fun _ hv => by simp at hv⟩
    · have hsc := ih.2.2 v rfl
      cases hc : c1.env with
      | none => simp [Compiler.enterScope, hc, SameScope] at hsc
      | some env =>
        simp only
        refine ⟨ih.1, ih.2.1, fun _ _ => ?_⟩
        simp only [Compiler.enterScope, hc, SameScope, Environment.enclosing_mk] at hsc
        rw [← hsc.2]
        exact sameScope_refl _
  | .IfStatement cond t e, c => by
    rw [visitStmt]
    obtain ⟨t0, n, _, h⟩ := visitExpr_frame cond c
    rcases hcond : visitExpr cond c with ⟨err | condition, c1⟩ <;> rw [hcond] at h <;>
      simp only at h ⊢
    · subst h; exact ⟨⟨t0, rfl⟩, rfl, fun _ hv => by simp at hv⟩
    · have iht := visitStmt_inv t (beginIf c1 condition)
      have h0 : (∃ t, (beginIf c1 condition).trace = c.trace ++ t) ∧
          (beginIf c1 condition).functions = c.functions ∧
          SameScope c.env (beginIf c1 condition).env := by
        subst h
        exact ⟨⟨_, by rw [beginIf_trace, List.append_assoc]⟩, rfl, sameScope_refl _⟩
      rcases ht : visitStmt t (beginIf c1 condition) with ⟨err | v, c4⟩ <;>
        rw [ht] at iht <;> simp only
      · exact stmtInv_chain h0 ⟨iht.1, iht.2.1, fun _ hv => by simp at hv⟩
      · have ihe := visitElse_inv e (c1.nextId + 1) (c1.nextId + 2)
          (c4.insert (.br (c1.nextId + 2)))
        have h4 : StmtInv c (Except.ok v, c4.insert (.br (c1.nextId + 2))) := by
          refine stmtInv_chain h0 ⟨?_, iht.2.1, fun _ _ => iht.2.2 v rfl⟩
          obtain ⟨t4, ht4⟩ := iht.1
          exact ⟨t4 ++ [.instruction c4.insertBlock c4.nextId (.br (c1.nextId + 2))], by
            show c4.trace ++ [_] = _
            rw [show c4.trace = _ from ht4, List.append_assoc]⟩
        rcases hel : visitElse e (c1.nextId + 1) (c1.nextId + 2)
          (c4.insert (.br (c1.nextId + 2))) with ⟨err | v5, c5⟩ <;> rw [hel] at ihe <;>
          simp only
        · exact stmtInv_chain ⟨h4.1, h4.2.1, h4.2.2 v rfl⟩ ⟨ihe.1, ihe.2.1, fun _ hv => by simp at hv⟩
        · refine stmtInv_chain ⟨h4.1, h4.2.1, h4.2.2 v rfl⟩ ?_
          obtain ⟨t5, ht5⟩ := ihe.1
          exact ⟨⟨t5 ++ [.setInsertPoint (c1.nextId + 2)], by
            show c5.trace ++ [_] = _
            rw [show c5.trace = _ from ht5, List.append_assoc]⟩, ihe.2.1,
            fun _ _ => ihe.2.2 v5 rfl⟩
theorem visitElse_inv : ∀ (e : Option Statement) (eb mb : Nat) (c : Compiler),
    StmtInv c (visitElse e eb mb c)
  | none, eb, mb, c => by
    rw [visitElse]; exact ⟨⟨[], by simp⟩, rfl, fun _ _ => sameScope_refl _⟩
  | some s, eb, mb, c => by
    have ih := visitStmt_inv s (beginElse c eb)
    rw [visitElse]
    have h0 : (∃ t, (beginElse c eb).trace = c.trace ++ t) ∧
        (beginElse c eb).functions = c.functions ∧
        SameScope c.env (beginElse c eb).env :=
      ⟨⟨_, rfl⟩, rfl, sameScope_refl _⟩
    rcases hs : visitStmt s (beginElse c eb) with ⟨err | v, c1⟩ <;>
      rw [hs] at ih <;> simp only
    · exact stmtInv_chain h0 ⟨ih.1, ih.2.1, fun _ hv => by simp at hv⟩
    · refine stmtInv_chain h0 ?_
      obtain ⟨t1, ht1⟩ := ih.1
      exact ⟨⟨t1 ++ [.instruction c1.insertBlock c1.nextId (.br mb)], by
        show c1.trace ++ [_] = _
        rw [show c1.trace = _ from ht1, List.append_assoc]⟩, ih.2.1, fun _ _ => ih.2.2 v rfl⟩
theorem visitStmts_inv : ∀ (ss : List Statement) (c : Compiler), StmtInv c (visitStmts ss c)
  | [], c => by
    rw [visitStmts]; exact ⟨⟨[], by simp⟩, rfl, fun _ _ => sameScope_refl _⟩
  | s :: rest, c => by
    rw [visitStmts]
    have ih1 := visitStmt_inv s c
    rcases hs : visitStmt s c with ⟨err | v, c1⟩ <;> rw [hs] at ih1 <;> simp only
    · exact ⟨ih1.1, ih1.2.1, fun _ hv => by simp at hv⟩
    · exact stmtInv_chain ⟨ih1.1, ih1.2.1, ih1.2.2 v rfl⟩ (visitStmts_inv rest c1)
end

/-! ## Binary expressions -/

theorem emitted_self (c : Compiler) : emitted c c = [] := by
  simp [emitted]

theorem visitExpr_trace (e : Expression) (c : Compiler) :
    (visitExpr e c).2.trace = c.trace ++ emitted c (visitExpr e c).2 := by
  obtain ⟨t, n, _, h⟩ := visitExpr_frame e c
  rw [h]; simp [emitted]

/-- C1: for each of the ten operators, when the operands lower to `left` and
`right`, the Binary emits the trace of the left operand, then the trace of the
right operand, then exactly one instruction of the operator's kind applied to
`(left, right)`, and returns that instruction's result. -/
theorem binary_emits_operands_then_instruction (l r : Expression) (op : TokenTypes)
    (kind : BinaryKind) (c c1 c2 : Compiler) (left right : Value)
    (hop : (op, kind) ∈ [(TokenTypes.PLUS, BinaryKind.Add), (.MINUS, .Sub), (.STAR, .Mul),
      (.SLASH, .SDiv), (.EQUAL_EQUAL, .ICmpEQ), (.NOT_EQUAL, .ICmpNE), (.LESS, .ICmpSLT),
      (.LESS_EQUAL, .ICmpSLE), (.GREATER, .ICmpSGT), (.GREATER_EQUAL, .ICmpSGE)])
    (hl : visitExpr l c = (.ok left, c1)) (hr : visitExpr r c1 = (.ok right, c2)) :
    ∃ name : String,
      (visitExpr (.BinaryExpression l op r) c).1 = .ok (.inst c2.nextId) ∧
      emitted c (visitExpr (.BinaryExpression l op r) c).2 =
        emitted c c1 ++ emitted c1 c2 ++
          [.instruction c2.insertBlock c2.nextId (.binary kind left right name)] := by
  have h1 := visitExpr_trace l c
  have h2 := visitExpr_trace r c1
  rw [hl] at h1; rw [hr] at h2
  simp only at h1 h2
  have key : ∀ name, binaryCase op = some (kind, name) →
      (visitExpr (.BinaryExpression l op r) c).1 = .ok (.inst c2.nextId) ∧
      emitted c (visitExpr (.BinaryExpression l op r) c).2 =
        emitted c c1 ++ emitted c1 c2 ++
          [.instruction c2.insertBlock c2.nextId (.binary kind left right name)] := by
    intro name hk
    rw [visitExpr, hl]; simp only; rw [hr]; simp only; rw [hk]; simp only
    refine ⟨trivial, emitted_append _ _ _ ?_⟩
    show c2.trace ++ [_] = _
    rw [h2, h1]; simp
  simp only [List.mem_cons, Prod.mk.injEq, List.mem_singleton, List.not_mem_nil, or_false] at hop
  rcases hop with h | h | h | h | h | h | h | h | h | h <;> obtain ⟨rfl, rfl⟩ := h
  · exact ⟨_, key _ rfl⟩
  · exact ⟨_, key _ rfl⟩
  · exact ⟨_, key _ rfl⟩
  · exact ⟨_, key _ rfl⟩
  · exact ⟨_, key _ rfl⟩
  · exact ⟨_, key _ rfl⟩
  · exact ⟨_, key _ rfl⟩
  · exact ⟨_, key _ rfl⟩
  · exact ⟨_, key _ rfl⟩
  · exact ⟨_, key _ rfl⟩

theorem binary_emits_operands_then_instruction_witness :
    visitExpr (.IntExpression 7) (compileSetup (Compiler.fresh typeMap)) =
      (.ok (.constInt 64 7), compileSetup (Compiler.fresh typeMap)) ∧
    visitExpr (.BinaryExpression (.IntExpression 1) .STAR (.IntExpression 2))
        (compileSetup (Compiler.fresh typeMap)) =
      (.ok (.inst 1), (compileSetup (Compiler.fresh typeMap)).insert
        (.binary .Mul (.constInt 64 1) (.constInt 64 2) "multmp")) ∧
    ∃ name : String,
      (visitExpr (.BinaryExpression (.IntExpression 7) .SLASH
        (.BinaryExpression (.IntExpression 1) .STAR (.IntExpression 2)))
        (compileSetup (Compiler.fresh typeMap))).1 = .ok (.inst 2) ∧
      emitted (compileSetup (Compiler.fresh typeMap))
        (visitExpr (.BinaryExpression (.IntExpression 7) .SLASH
          (.BinaryExpression (.IntExpression 1) .STAR (.IntExpression 2)))
          (compileSetup (Compiler.fresh typeMap))).2 =
        emitted (compileSetup (Compiler.fresh typeMap)) (compileSetup (Compiler.fresh typeMap)) ++
          emitted (compileSetup (Compiler.fresh typeMap))
            ((compileSetup (Compiler.fresh typeMap)).insert
              (.binary .Mul (.constInt 64 1) (.constInt 64 2) "multmp")) ++
          [.instruction (some 0) 2
            (.binary .SDiv (.constInt 64 7) (.inst 1) name)] :=
  ⟨rfl, rfl, binary_emits_operands_then_instruction (.IntExpression 7)
    (.BinaryExpression (.IntExpression 1) .STAR (.IntExpression 2)) .SLASH .SDiv
    (compileSetup (Compiler.fresh typeMap)) (compileSetup (Compiler.fresh typeMap))
    ((compileSetup (Compiler.fresh typeMap)).insert
      (.binary .Mul (.constInt 64 1) (.constInt 64 2) "multmp"))
    (.constInt 64 7) (.inst 1) (by simp) rfl rfl⟩

/-! ## Let statements and the type table -/

theorem visitExpr_env (e : Expression) (c : Compiler) : (visitExpr e c).2.env = c.env := by
  obtain ⟨t, n, _, h⟩ := visitExpr_frame e c
  rw [h]

theorem visitStmt_let (name : String) (type : TokenTypes) (e : Expression) (c c1 : Compiler)
    (env : Environment) (value : Value) (henv : c.env = some env)
    (he : visitExpr e { c with typeMap := (typeMapIndex c.typeMap type).2 } = (.ok value, c1)) :
    visitStmt (.LetStatement name type e) c =
      (.ok (.inst c1.nextId),
        { c1.insert (.intCast value (typeMapIndex c.typeMap type).1.1
            (typeMapIndex c.typeMap type).1.2) with
          env := some (env.define name (.inst c1.nextId)) }) := by
  have h1 := visitExpr_env e { c with typeMap := (typeMapIndex c.typeMap type).2 }
  rw [he] at h1
  simp only at h1
  rw [visitStmt]; simp only; rw [he]; simp only
  rw [show (c1.insert (.intCast value (typeMapIndex c.typeMap type).1.1
    (typeMapIndex c.typeMap type).1.2)).env = some env from h1.trans henv]

theorem visitStmt_let_inv (name : String) (type : TokenTypes) (e : Expression)
    (c c' : Compiler) (v : Value) (h : visitStmt (.LetStatement name type e) c = (.ok v, c')) :
    ∃ env value c1, c.env = some env ∧
      visitExpr e { c with typeMap := (typeMapIndex c.typeMap type).2 } = (.ok value, c1) ∧
      v = .inst c1.nextId ∧
      c' = { c1.insert (.intCast value (typeMapIndex c.typeMap type).1.1
            (typeMapIndex c.typeMap type).1.2) with
          env := some (env.define name (.inst c1.nextId)) } := by
  have h1 := visitExpr_env e { c with typeMap := (typeMapIndex c.typeMap type).2 }
  rw [visitStmt] at h; simp only at h
  rcases he : visitExpr e { c with typeMap := (typeMapIndex c.typeMap type).2 }
    with ⟨err | value, c1⟩ <;> rw [he] at h h1 <;> simp only at h h1
  · simp at h
  · cases hc : c.env with
    | none =>
      rw [show (c1.insert (.intCast value (typeMapIndex c.typeMap type).1.1
        (typeMapIndex c.typeMap type).1.2)).env = none from h1.trans hc] at h
      simp at h
    | some env =>
      rw [show (c1.insert (.intCast value (typeMapIndex c.typeMap type).1.1
        (typeMapIndex c.typeMap type).1.2)).env = some env from h1.trans hc] at h
      simp only [Prod.mk.injEq, Except.ok.injEq] at h
      exact ⟨env, value, c1, rfl, rfl, h.1.symm, h.2.symm⟩

theorem Environment.get_define (env : Environment) (name : String) (v : Value) :
    (env.define name v).get name = .ok v := by
  cases env with
  | mk i vs e =>
    cases e <;> simp [Environment.define, Environment.get, List.lookup_cons]

/-- C3 (as stated, refuted): a Let whose tag `OTHER 0` has no entry in the
type table does not fail: it returns the result of a cast to the pair
`(0, false)`, which it emits, and binds the name to it. -/
theorem let_unknown_tag_does_not_fail :
    typeMap.lookup (.OTHER 0) = none ∧
    (visitStmt (.LetStatement "x" (.OTHER 0) (.IntExpression 5))
      (compileSetup (Compiler.fresh typeMap))).1 = .ok (.inst 1) ∧
    emitted (compileSetup (Compiler.fresh typeMap))
      (visitStmt (.LetStatement "x" (.OTHER 0) (.IntExpression 5))
        (compileSetup (Compiler.fresh typeMap))).2 =
      [.instruction (some 0) 1 (.intCast (.constInt 64 5) 0 false)] ∧
    envGet (visitStmt (.LetStatement "x" (.OTHER 0) (.IntExpression 5))
      (compileSetup (Compiler.fresh typeMap))).2.env "x" = .ok (.inst 1) := by
  refine ⟨by decide, rfl, by decide, rfl⟩

/-- C3 (amended): a Let whose tag has no entry in the type table raises no
error.  The table lookup inserts the tag with the pair `(0, false)`; when the
expression lowers to `value`, the Let emits the trace of the expression
followed by exactly one integer cast of `value` to bit width 0, unsigned,
binds the name to the cast result in the current scope and returns it. -/
theorem let_unknown_tag_casts_to_default (name : String) (type : TokenTypes)
    (e : Expression) (c c1 : Compiler) (env : Environment) (value : Value)
    (hT : c.typeMap.lookup type = none) (henv : c.env = some env)
    (he : visitExpr e { c with typeMap := c.typeMap ++ [(type, (0, false))] } =
      (.ok value, c1)) :
    visitStmt (.LetStatement name type e) c =
      (.ok (.inst c1.nextId),
        { c1.insert (.intCast value 0 false) with
          env := some (env.define name (.inst c1.nextId)) }) ∧
    emitted c (visitStmt (.LetStatement name type e) c).2 =
      emitted c c1 ++ [.instruction c1.insertBlock c1.nextId (.intCast value 0 false)] ∧
    envGet (visitStmt (.LetStatement name type e) c).2.env name = .ok (.inst c1.nextId) ∧
    (visitStmt (.LetStatement name type e) c).2.typeMap = c.typeMap ++ [(type, (0, false))] := by
  have hidx : typeMapIndex c.typeMap type = ((0, false), c.typeMap ++ [(type, (0, false))]) := by
    simp [typeMapIndex, hT]
  have hlet := visitStmt_let name type e c c1 env value henv (by rw [hidx]; exact he)
  rw [hidx] at hlet
  obtain ⟨t, n, _, hfr⟩ := visitExpr_frame e
    { c with typeMap := c.typeMap ++ [(type, (0, false))] }
  rw [he] at hfr; simp only at hfr
  rw [hlet]
  refine ⟨rfl, ?_, ?_, ?_⟩
  · subst hfr; simp [emitted, Compiler.insert]
  · simp [envGet, Environment.get_define]
  · subst hfr; rfl

theorem let_unknown_tag_casts_to_default_witness :
    (compileSetup (Compiler.fresh typeMap)).typeMap.lookup TokenTypes.PLUS = none ∧
    (compileSetup (Compiler.fresh typeMap)).env = some (.mk 0 [] none) ∧
    visitStmt (.LetStatement "x" .PLUS (.IntExpression 5))
        (compileSetup (Compiler.fresh typeMap)) =
      (.ok (.inst 1),
        { (compileSetup (Compiler.fresh (typeMap ++ [(TokenTypes.PLUS, (0, false))]))).insert
            (.intCast (.constInt 64 5) 0 false) with
          env := some ((Environment.mk 0 [] none).define "x" (.inst 1)) }) :=
  ⟨by decide, rfl,
    (let_unknown_tag_casts_to_default "x" .PLUS (.IntExpression 5)
      (compileSetup (Compiler.fresh typeMap))
      (compileSetup (Compiler.fresh (typeMap ++ [(TokenTypes.PLUS, (0, false))])))
      (.mk 0 [] none) (.constInt 64 5) (by decide) rfl rfl).1⟩

/-- C4: a Let whose tag is one of the eight sized-integer tags, lowered in a
state whose type table still maps the eight tags to their initial pairs and
whose expression lowers to `value`, emits the trace of the expression followed
by exactly one integer cast of `value` to the tag's `(bitWidth, signed)` pair,
binds the name to the cast result in the current scope and returns the cast
result. -/
theorem let_casts_to_declared_type (name : String) (type : TokenTypes) (bitWidth : Nat)
    (isSigned : Bool) (e : Expression) (c c1 : Compiler) (env : Environment) (value : Value)
    (hT : (type, (bitWidth, isSigned)) ∈
      [(TokenTypes.I8, (8, true)), (.I16, (16, true)), (.I32, (32, true)), (.I64, (64, true)),
       (.U8, (8, false)), (.U16, (16, false)), (.U32, (32, false)), (.U64, (64, false))])
    (hreg : ∀ p ∈ typeMap, c.typeMap.lookup p.1 = some p.2)
    (henv : c.env = some env)
    (he : visitExpr e c = (.ok value, c1)) :
    visitStmt (.LetStatement name type e) c =
      (.ok (.inst c1.nextId),
        { c1.insert (.intCast value bitWidth isSigned) with
          env := some (env.define name (.inst c1.nextId)) }) ∧
    emitted c (visitStmt (.LetStatement name type e) c).2 =
      emitted c c1 ++
        [.instruction c1.insertBlock c1.nextId (.intCast value bitWidth isSigned)] ∧
    envGet (visitStmt (.LetStatement name type e) c).2.env name = .ok (.inst c1.nextId) := by
  have hlook : c.typeMap.lookup type = some (bitWidth, isSigned) := hreg _ hT
  have hidx : typeMapIndex c.typeMap type = ((bitWidth, isSigned), c.typeMap) := by
    simp [typeMapIndex, hlook]
  have hlet := visitStmt_let name type e c c1 env value henv (by rw [hidx]; exact he)
  rw [hidx] at hlet
  obtain ⟨t, n, _, hfr⟩ := visitExpr_frame e c
  rw [he] at hfr; simp only at hfr
  rw [hlet]
  refine ⟨rfl, ?_, ?_⟩
  · subst hfr; simp [emitted, Compiler.insert]
  · simp [envGet, Environment.get_define]

theorem let_casts_to_declared_type_witness :
    (∀ p ∈ typeMap, (compileSetup (Compiler.fresh typeMap)).typeMap.lookup p.1 = some p.2) ∧
    (compileSetup (Compiler.fresh typeMap)).env = some (.mk 0 [] none) ∧
    visitStmt (.LetStatement "x" .U16 (.IntExpression 5))
        (compileSetup (Compiler.fresh typeMap)) =
      (.ok (.inst 1),
        { (compileSetup (Compiler.fresh typeMap)).insert
            (.intCast (.constInt 64 5) 16 false) with
          env := some ((Environment.mk 0 [] none).define "x" (.inst 1)) }) :=
  ⟨by decide, rfl,
    (let_casts_to_declared_type "x" .U16 16 false (.IntExpression 5)
      (compileSetup (Compiler.fresh typeMap)) (compileSetup (Compiler.fresh typeMap))
      (.mk 0 [] none) (.constInt 64 5) (by simp) (by decide) rfl rfl).1⟩

/-! ## If statements -/

theorem trace_append_emitted (c c1 : Compiler) (t : List Emission)
    (h : c1.trace = c.trace ++ t) : c1.trace = c.trace ++ emitted c c1 := by
  rw [emitted_append c c1 t h]; exact h

theorem visitStmt_trace (s : Statement) (c : Compiler) :
    (visitStmt s c).2.trace = c.trace ++ emitted c (visitStmt s c).2 := by
  obtain ⟨t, h⟩ := (visitStmt_inv s c).1
  exact trace_append_emitted _ _ t h

theorem visitElse_trace (e : Option Statement) (eb mb : Nat) (c : Compiler) :
    (visitElse e eb mb c).2.trace = c.trace ++ emitted c (visitElse e eb mb c).2 := by
  obtain ⟨t, h⟩ := (visitElse_inv e eb mb c).1
  exact trace_append_emitted _ _ t h

theorem visitStmts_trace (ss : List Statement) (c : Compiler) :
    (visitStmts ss c).2.trace = c.trace ++ emitted c (visitStmts ss c).2 := by
  obtain ⟨t, h⟩ := (visitStmts_inv ss c).1
  exact trace_append_emitted _ _ t h

/-- C2 (the code at the failing input): compiling `if 1 < 2 { print 1; }`
returns; the conditional branch in the entry block targets block 2 on true and
block 3 on false; block 2 ends with the jump to the merge block 4, but block 3
holds no instruction at all (no jump to block 4) and is not in the block list
of `main`. -/
theorem if_without_else_leaves_else_block_dangling :
    (compile [.IfStatement (.BinaryExpression (.IntExpression 1) .LESS (.IntExpression 2))
        (.BlockStatement [.PrintStatement (.IntExpression 1)]) none]
      (Compiler.fresh typeMap)).1 = .ok () ∧
    blockInstructions (compile [.IfStatement
        (.BinaryExpression (.IntExpression 1) .LESS (.IntExpression 2))
        (.BlockStatement [.PrintStatement (.IntExpression 1)]) none]
      (Compiler.fresh typeMap)).2 0 =
      [.binary .ICmpSLT (.constInt 64 1) (.constInt 64 2) "lttmp", .condBr (.inst 1) 2 3] ∧
    blockInstructions (compile [.IfStatement
        (.BinaryExpression (.IntExpression 1) .LESS (.IntExpression 2))
        (.BlockStatement [.PrintStatement (.IntExpression 1)]) none]
      (Compiler.fresh typeMap)).2 2 =
      [.call (some "printf") [.globalString 6, .constInt 64 1] "printf", .br 4] ∧
    blockInstructions (compile [.IfStatement
        (.BinaryExpression (.IntExpression 1) .LESS (.IntExpression 2))
        (.BlockStatement [.PrintStatement (.IntExpression 1)]) none]
      (Compiler.fresh typeMap)).2 3 = [] ∧
    (compile [.IfStatement (.BinaryExpression (.IntExpression 1) .LESS (.IntExpression 2))
        (.BlockStatement [.PrintStatement (.IntExpression 1)]) none]
      (Compiler.fresh typeMap)).2.mainBlocks = [0, 2, 4] := by
  refine ⟨rfl, by decide, by decide, by decide, by decide⟩

/-- C7: an If with an else branch whose condition and branches lower performs,
in this order: the trace of the condition; the creation of the blocks "then",
"else" and "ifcont" (merge); one conditional branch on the condition value to
(then, else); insertion set to then, the trace of the then branch, one jump to
merge; insertion set to else, the trace of the else branch, one jump to merge;
insertion set to merge.  For every If that returns, with or without else, the
insertion block afterwards is the merge block it created. -/
theorem if_lowering_order (cond : Expression) (thenBranch elseBranch : Statement)
    (c c1 c4 c6 : Compiler) (condition v4 v6 : Value)
    (hc : visitExpr cond c = (.ok condition, c1))
    (ht : visitStmt thenBranch (beginIf c1 condition) = (.ok v4, c4))
    (he : visitStmt elseBranch (beginElse (c4.insert (.br (c1.nextId + 2))) (c1.nextId + 1)) =
      (.ok v6, c6)) :
    (visitStmt (.IfStatement cond thenBranch (some elseBranch)) c).1 = .ok .null ∧
    emitted c (visitStmt (.IfStatement cond thenBranch (some elseBranch)) c).2 =
      emitted c c1 ++
      [.createBlock c1.nextId "then" true, .createBlock (c1.nextId + 1) "else" false,
       .createBlock (c1.nextId + 2) "ifcont" false,
       .instruction c1.insertBlock (c1.nextId + 3)
         (.condBr condition c1.nextId (c1.nextId + 1)),
       .setInsertPoint c1.nextId] ++
      emitted (beginIf c1 condition) c4 ++
      [.instruction c4.insertBlock c4.nextId (.br (c1.nextId + 2)),
       .setInsertPoint (c1.nextId + 1)] ++
      emitted (beginElse (c4.insert (.br (c1.nextId + 2))) (c1.nextId + 1)) c6 ++
      [.instruction c6.insertBlock c6.nextId (.br (c1.nextId + 2)),
       .setInsertPoint (c1.nextId + 2)] ∧
    ∀ (eb : Option Statement) (v : Value) (c' : Compiler),
      visitStmt (.IfStatement cond thenBranch eb) c = (.ok v, c') →
      c'.insertBlock = some (c1.nextId + 2) ∧
      .createBlock (c1.nextId + 2) "ifcont" false ∈ emitted c c' := by
  have h1 := visitExpr_trace cond c
  have h2 := visitStmt_trace thenBranch (beginIf c1 condition)
  have h3 := visitStmt_trace elseBranch
    (beginElse (c4.insert (.br (c1.nextId + 2))) (c1.nextId + 1))
  rw [hc] at h1; rw [ht] at h2; rw [he] at h3
  simp only at h1 h2 h3
  rw [beginIf_trace] at h2
  have hres : visitStmt (.IfStatement cond thenBranch (some elseBranch)) c =
      (.ok .null, ((c6.insert (.br (c1.nextId + 2))).pushBlock (c1.nextId + 2)).setInsertPoint
        (c1.nextId + 2)) := by
    rw [visitStmt, hc]; simp only; rw [ht]; simp only; rw [visitElse, he]
  refine ⟨by rw [hres], ?_, ?_⟩
  · rw [hres]
    apply emitted_append
    show c6.trace ++ [_] ++ [_] = _
    rw [h3]
    show (c4.trace ++ [_]) ++ [_] ++ _ ++ [_] ++ [_] = _
    rw [h2, h1]
    simp
  · intro eb v c' h
    rw [visitStmt, hc] at h; simp only at h; rw [ht] at h; simp only at h
    have h5 := visitElse_trace eb (c1.nextId + 1) (c1.nextId + 2)
      (c4.insert (.br (c1.nextId + 2)))
    rcases hel : visitElse eb (c1.nextId + 1) (c1.nextId + 2)
      (c4.insert (.br (c1.nextId + 2))) with ⟨err | v5, c5⟩ <;> rw [hel] at h h5 <;>
      simp only at h h5
    · simp at h
    · simp only [Prod.mk.injEq] at h
      obtain ⟨_, rfl⟩ := h
      refine ⟨rfl, ?_⟩
      have htr : ((c5.pushBlock (c1.nextId + 2)).setInsertPoint (c1.nextId + 2)).trace =
          c.trace ++ (emitted c c1 ++
            [.createBlock c1.nextId "then" true, .createBlock (c1.nextId + 1) "else" false,
             .createBlock (c1.nextId + 2) "ifcont" false,
             .instruction c1.insertBlock (c1.nextId + 3)
               (.condBr condition c1.nextId (c1.nextId + 1)),
             .setInsertPoint c1.nextId] ++
            emitted (beginIf c1 condition) c4 ++
            [.instruction c4.insertBlock c4.nextId (.br (c1.nextId + 2))] ++
            emitted (c4.insert (.br (c1.nextId + 2))) c5 ++
            [.setInsertPoint (c1.nextId + 2)]) := by
        show c5.trace ++ [_] = _
        rw [h5]
        show (c4.trace ++ [_]) ++ _ ++ [_] = _
        rw [h2, h1]
        simp
      rw [emitted_append _ _ _ htr]
      simp

theorem if_lowering_order_witness :
    visitExpr (.IntExpression 1) (compileSetup (Compiler.fresh typeMap)) =
      (.ok (.constInt 64 1), compileSetup (Compiler.fresh typeMap)) ∧
    visitStmt (.ExpressionStatement (.IntExpression 1))
        (beginIf (compileSetup (Compiler.fresh typeMap)) (.constInt 64 1)) =
      (.ok (.constInt 64 1), beginIf (compileSetup (Compiler.fresh typeMap)) (.constInt 64 1)) ∧
    visitStmt (.ExpressionStatement (.IntExpression 0))
        (beginElse ((beginIf (compileSetup (Compiler.fresh typeMap)) (.constInt 64 1)).insert
          (.br 3)) 2) =
      (.ok (.constInt 64 0),
        beginElse ((beginIf (compileSetup (Compiler.fresh typeMap)) (.constInt 64 1)).insert
          (.br 3)) 2) ∧
    (visitStmt (.IfStatement (.IntExpression 1) (.ExpressionStatement (.IntExpression 1))
      (some (.ExpressionStatement (.IntExpression 0))))
      (compileSetup (Compiler.fresh typeMap))).1 = .ok .null :=
  ⟨rfl, rfl, rfl,
    (if_lowering_order (.IntExpression 1) (.ExpressionStatement (.IntExpression 1))
      (.ExpressionStatement (.IntExpression 0)) (compileSetup (Compiler.fresh typeMap))
      (compileSetup (Compiler.fresh typeMap))
      (beginIf (compileSetup (Compiler.fresh typeMap)) (.constInt 64 1))
      (beginElse ((beginIf (compileSetup (Compiler.fresh typeMap)) (.constInt 64 1)).insert
        (.br 3)) 2)
      (.constInt 64 1) (.constInt 64 1) (.constInt 64 0) rfl rfl rfl).1⟩

/-! ## Scopes -/

theorem visitStmt_block_inv (ss : List Statement) (c c' : Compiler) (v : Value)
    (h : visitStmt (.BlockStatement ss) c = (.ok v, c')) :
    ∃ v1 c1 env, visitStmts ss c.enterScope = (.ok v1, c1) ∧ c1.env = some env ∧
      env.id = c.nextEnv ∧ env.enclosing = c.env ∧ c' = { c1 with env := c.env } := by
  rw [visitStmt] at h
  have inv := visitStmts_inv ss c.enterScope
  rcases hs : visitStmts ss c.enterScope with ⟨err | v1, c1⟩ <;> rw [hs] at h inv <;>
    simp only at h
  · simp at h
  · have hsc := inv.2.2 v1 rfl
    cases hc : c1.env with
    | none => simp [Compiler.enterScope, hc, SameScope] at hsc
    | some env =>
      rw [hc] at h
      simp only [Compiler.enterScope, hc, SameScope, Environment.enclosing_mk,
        Environment.id_mk] at hsc
      simp only [Prod.mk.injEq] at h
      refine ⟨v1, c1, env, rfl, hc, hsc.1.symm, hsc.2.symm, ?_⟩
      rw [← h.2, hsc.2]

theorem statesBefore_scope : ∀ (ss : List Statement) (c c' : Compiler) (v : Value),
    visitStmts ss c = (.ok v, c') → ∀ ci ∈ statesBefore ss c, SameScope c.env ci.env
  | [], _, _, _ => by simp [statesBefore]
  | s :: rest, c, c', v => by
    intro h ci hci
    rw [visitStmts] at h
    have inv := visitStmt_inv s c
    rcases hs : visitStmt s c with ⟨err | v1, c1⟩ <;> rw [hs] at h inv <;> simp only at h
    · simp at h
    · simp only [statesBefore, hs, List.mem_cons] at hci
      rcases hci with rfl | hci
      · exact sameScope_refl _
      · exact sameScope_trans (inv.2.2 v1 rfl) (statesBefore_scope rest c1 c' v h ci hci)

theorem stmtTraces_eq : ∀ (ss : List Statement) (c c' : Compiler) (v : Value),
    visitStmts ss c = (.ok v, c') → emitted c c' = stmtTraces ss c
  | [], c, c', v => by
    intro h
    rw [visitStmts] at h
    simp only [Prod.mk.injEq] at h
    rw [← h.2]; simp [stmtTraces, emitted]
  | s :: rest, c, c', v => by
    intro h
    rw [visitStmts] at h
    have h1 := visitStmt_trace s c
    rcases hs : visitStmt s c with ⟨err | v1, c1⟩ <;> rw [hs] at h h1 <;> simp only at h h1
    · simp at h
    · have h2 := visitStmts_trace rest c1
      have ih := stmtTraces_eq rest c1 c' v h
      rw [h] at h2; simp only at h2
      simp only [stmtTraces, hs]
      rw [← ih]
      apply emitted_append
      rw [h2, h1, List.append_assoc]

/-- C6: a statement that returns leaves `env` at the scope that was current
before.  For a Block, moreover: the child scope is a new scope whose enclosing
scope is the entering one; every child is visited, in list order and from the
state the previous child left, with that child scope current; and on exit
`env` is the entering scope with its whole enclosing chain exactly as on
entry. -/
theorem statement_restores_scope (s : Statement) (c c' : Compiler) (v : Value)
    (h : visitStmt s c = (.ok v, c')) :
    SameScope c.env c'.env ∧
    ∀ ss, s = .BlockStatement ss →
      c.enterScope.env = some (.mk c.nextEnv [] c.env) ∧
      (∀ ci ∈ statesBefore ss c.enterScope, SameScope c.enterScope.env ci.env) ∧
      emitted c c' = stmtTraces ss c.enterScope ∧
      c'.env = c.env := by
  have inv := visitStmt_inv s c
  rw [h] at inv
  refine ⟨inv.2.2 v rfl, ?_⟩
  intro ss hs
  subst hs
  obtain ⟨v1, c1, env, hss, henv, hid, henc, hc'⟩ := visitStmt_block_inv ss c c' v h
  refine ⟨rfl, statesBefore_scope ss _ c1 v1 hss, ?_, by rw [hc']⟩
  have := stmtTraces_eq ss _ c1 v1 hss
  rw [← this, hc']
  rfl

theorem statement_restores_scope_witness :
    visitStmt (.BlockStatement [.LetStatement "x" .I8 (.IntExpression 1),
        .PrintStatement (.VarExpression "x")]) (compileSetup (Compiler.fresh typeMap)) =
      (.ok .null,
        { (((compileSetup (Compiler.fresh typeMap)).insert
            (.intCast (.constInt 64 1) 8 true)).createGlobalStringPtr "%d\n").insert
            (.call (some "printf") [.globalString 2, .inst 1] "printf") with nextEnv := 2 }) ∧
    SameScope (compileSetup (Compiler.fresh typeMap)).env
      ({ (((compileSetup (Compiler.fresh typeMap)).insert
            (.intCast (.constInt 64 1) 8 true)).createGlobalStringPtr "%d\n").insert
            (.call (some "printf") [.globalString 2, .inst 1] "printf") with
          nextEnv := 2 } : Compiler).env :=
  ⟨rfl, (statement_restores_scope
    (.BlockStatement [.LetStatement "x" .I8 (.IntExpression 1),
      .PrintStatement (.VarExpression "x")]) (compileSetup (Compiler.fresh typeMap))
    { (((compileSetup (Compiler.fresh typeMap)).insert
        (.intCast (.constInt 64 1) 8 true)).createGlobalStringPtr "%d\n").insert
        (.call (some "printf") [.globalString 2, .inst 1] "printf") with nextEnv := 2 }
    .null rfl).1⟩

theorem visitExpr_var (x : String) (c : Compiler) :
    visitExpr (.VarExpression x) c = (envGet c.env x, c) := by
  rw [visitExpr]

theorem Environment.get_child (i : Nat) (outer : Environment) (x : String) :
    (Environment.mk i [] (some outer)).get x = outer.get x := by
  simp [Environment.get]

theorem envGet_iterate_enterScope (x : String) : ∀ (n : Nat) (c : Compiler) (env : Environment),
    c.env = some env → envGet (Compiler.enterScope^[n] c).env x = env.get x
  | 0, c, env, h => by simp [envGet, h]
  | n + 1, c, env, h => by
    rw [Function.iterate_succ_apply]
    have := envGet_iterate_enterScope x n c.enterScope (.mk c.nextEnv [] (some env))
      (by simp [Compiler.enterScope, h])
    rw [this, Environment.get_child]

/-- The value `v` is the result of an integer cast of `value` to
`(bitWidth, isSigned)` which is the last emission of `c`. -/
theorem let_value_is_last_cast (name : String) (type : TokenTypes) (e : Expression)
    (c c' : Compiler) (v : Value) (h : visitStmt (.LetStatement name type e) c = (.ok v, c')) :
    ∃ env value b k, c.env = some env ∧
      (visitExpr e { c with typeMap := (typeMapIndex c.typeMap type).2 }).1 = .ok value ∧
      v = .inst k ∧ c'.env = some (env.define name v) ∧
      c'.trace.getLast? = some (.instruction b k (.intCast value
        (typeMapIndex c.typeMap type).1.1 (typeMapIndex c.typeMap type).1.2)) := by
  obtain ⟨env, value, c1, henv, he, hv, hc'⟩ := visitStmt_let_inv name type e c c' v h
  refine ⟨env, value, c1.insertBlock, c1.nextId, henv, by rw [he], hv, by rw [hc', hv], ?_⟩
  rw [hc']
  simp [Compiler.insert]

/-- C5: after `Let x = e1` (returning its cast value `v1`), entering a block
and lowering `Let x = e2` (returning its cast value `v2`): `Variable(x)` inside
the block resolves to `v2`, the inner Let leaves the enclosing (outer) scope as
it was, and once any block starting with that inner Let has been lowered,
`Variable(x)` resolves to `v1` again, in the scope chain left by the outer
Let. -/
theorem inner_let_shadows_outer (x : String) (T1 T2 : TokenTypes) (e1 e2 : Expression)
    (c c1 c2 : Compiler) (v1 v2 : Value)
    (h1 : visitStmt (.LetStatement x T1 e1) c = (.ok v1, c1))
    (h2 : visitStmt (.LetStatement x T2 e2) c1.enterScope = (.ok v2, c2)) :
    (∃ value b k bw sg,
      (visitExpr e1 { c with typeMap := (typeMapIndex c.typeMap T1).2 }).1 = .ok value ∧
      v1 = .inst k ∧ c1.trace.getLast? = some (.instruction b k (.intCast value bw sg))) ∧
    (∃ value b k bw sg,
      (visitExpr e2 { c1.enterScope with
        typeMap := (typeMapIndex c1.enterScope.typeMap T2).2 }).1 = .ok value ∧
      v2 = .inst k ∧ c2.trace.getLast? = some (.instruction b k (.intCast value bw sg))) ∧
    visitExpr (.VarExpression x) c1 = (.ok v1, c1) ∧
    visitExpr (.VarExpression x) c2 = (.ok v2, c2) ∧
    (∃ inner, c2.env = some inner ∧ inner.enclosing = c1.env) ∧
    ∀ (rest : List Statement) (v : Value) (c3 : Compiler),
      visitStmt (.BlockStatement (.LetStatement x T2 e2 :: rest)) c1 = (.ok v, c3) →
      visitExpr (.VarExpression x) c3 = (.ok v1, c3) ∧ c3.env = c1.env := by
  obtain ⟨env1, value1, b1, k1, henv1, hval1, hv1, hc1, hlast1⟩ :=
    let_value_is_last_cast x T1 e1 c c1 v1 h1
  obtain ⟨env2, value2, b2, k2, henv2, hval2, hv2, hc2, hlast2⟩ :=
    let_value_is_last_cast x T2 e2 c1.enterScope c2 v2 h2
  have hget1 : envGet c1.env x = .ok v1 := by
    rw [hc1]; simp [envGet, Environment.get_define]
  refine ⟨⟨value1, b1, k1, _, _, hval1, hv1, hlast1⟩, ⟨value2, b2, k2, _, _, hval2, hv2, hlast2⟩,
    ?_, ?_, ?_, ?_⟩
  · rw [visitExpr_var, hget1]
  · rw [visitExpr_var, hc2]; simp [envGet, Environment.get_define]
  · refine ⟨_, hc2, ?_⟩
    simp only [Compiler.enterScope, Option.some.injEq] at henv2
    rw [Environment.define_enclosing, ← henv2]
    rfl
  · intro rest v c3 h3
    obtain ⟨_, _, _, _, _, _, _, hc3⟩ := visitStmt_block_inv _ c1 c3 v h3
    have : c3.env = c1.env := by rw [hc3]
    exact ⟨by rw [visitExpr_var, this, hget1], this⟩

theorem inner_let_shadows_outer_witness :
    visitStmt (.LetStatement "x" .I32 (.IntExpression 1))
        (compileSetup (Compiler.fresh typeMap)) =
      (.ok (.inst 1),
        { (compileSetup (Compiler.fresh typeMap)).insert (.intCast (.constInt 64 1) 32 true) with
          env := some (.mk 0 [("x", .inst 1)] none) }) ∧
    visitStmt (.LetStatement "x" .I64 (.IntExpression 2))
        (Compiler.enterScope
          { (compileSetup (Compiler.fresh typeMap)).insert
              (.intCast (.constInt 64 1) 32 true) with
            env := some (.mk 0 [("x", .inst 1)] none) }) =
      (.ok (.inst 2),
        { ((compileSetup (Compiler.fresh typeMap)).insert
              (.intCast (.constInt 64 1) 32 true)).insert (.intCast (.constInt 64 2) 64 true) with
          env := some (.mk 1 [("x", .inst 2)] (some (.mk 0 [("x", .inst 1)] none))),
          nextEnv := 2 }) ∧
    visitExpr (.VarExpression "x")
        { ((compileSetup (Compiler.fresh typeMap)).insert
              (.intCast (.constInt 64 1) 32 true)).insert (.intCast (.constInt 64 2) 64 true) with
          env := some (.mk 1 [("x", .inst 2)] (some (.mk 0 [("x", .inst 1)] none))),
          nextEnv := 2 } =
      (.ok (.inst 2),
        { ((compileSetup (Compiler.fresh typeMap)).insert
              (.intCast (.constInt 64 1) 32 true)).insert (.intCast (.constInt 64 2) 64 true) with
          env := some (.mk 1 [("x", .inst 2)] (some (.mk 0 [("x", .inst 1)] none))),
          nextEnv := 2 }) :=
  ⟨rfl, rfl,
    (inner_let_shadows_outer "x" .I32 .I64 (.IntExpression 1) (.IntExpression 2)
      (compileSetup (Compiler.fresh typeMap))
      { (compileSetup (Compiler.fresh typeMap)).insert (.intCast (.constInt 64 1) 32 true) with
        env := some (.mk 0 [("x", .inst 1)] none) }
      { ((compileSetup (Compiler.fresh typeMap)).insert
            (.intCast (.constInt 64 1) 32 true)).insert (.intCast (.constInt 64 2) 64 true) with
        env := some (.mk 1 [("x", .inst 2)] (some (.mk 0 [("x", .inst 1)] none))),
        nextEnv := 2 }
      (.inst 1) (.inst 2) rfl rfl).2.2.2.1⟩

/-- C8: when `Let x: T = e` with `T` one of the eight tags returns `v`, then
`v` is the result of the cast of the value of `e` to the width and signedness
of `T` (the last instruction emitted), and `Variable(x)` lowered right after,
in the same scope (`n = 0`) or inside `n` freshly entered nested blocks,
returns exactly `v` and leaves the state, hence the trace, unchanged. -/
theorem variable_after_let_is_cast_value (x : String) (T : TokenTypes) (bitWidth : Nat)
    (isSigned : Bool) (e : Expression) (c c' : Compiler) (v : Value)
    (hT : (T, (bitWidth, isSigned)) ∈
      [(TokenTypes.I8, (8, true)), (.I16, (16, true)), (.I32, (32, true)), (.I64, (64, true)),
       (.U8, (8, false)), (.U16, (16, false)), (.U32, (32, false)), (.U64, (64, false))])
    (hreg : ∀ p ∈ typeMap, c.typeMap.lookup p.1 = some p.2)
    (h : visitStmt (.LetStatement x T e) c = (.ok v, c')) :
    (∃ value b k, (visitExpr e c).1 = .ok value ∧ v = .inst k ∧
      c'.trace.getLast? = some (.instruction b k (.intCast value bitWidth isSigned))) ∧
    ∀ n : Nat, visitExpr (.VarExpression x) (Compiler.enterScope^[n] c') =
      (.ok v, Compiler.enterScope^[n] c') := by
  have hlook : c.typeMap.lookup T = some (bitWidth, isSigned) := hreg _ hT
  have hidx : typeMapIndex c.typeMap T = ((bitWidth, isSigned), c.typeMap) := by
    simp [typeMapIndex, hlook]
  obtain ⟨env, value, b, k, henv, hval, hv, hc', hlast⟩ :=
    let_value_is_last_cast x T e c c' v h
  rw [hidx] at hval hlast
  refine ⟨⟨value, b, k, hval, hv, hlast⟩, fun n => ?_⟩
  rw [visitExpr_var, envGet_iterate_enterScope x n c' _ hc', Environment.get_define]

theorem variable_after_let_is_cast_value_witness :
    (∀ p ∈ typeMap, (compileSetup (Compiler.fresh typeMap)).typeMap.lookup p.1 = some p.2) ∧
    visitStmt (.LetStatement "x" .I32 (.IntExpression 1))
        (compileSetup (Compiler.fresh typeMap)) =
      (.ok (.inst 1),
        { (compileSetup (Compiler.fresh typeMap)).insert (.intCast (.constInt 64 1) 32 true) with
          env := some (.mk 0 [("x", .inst 1)] none) }) ∧
    visitExpr (.VarExpression "x") (Compiler.enterScope^[2]
        { (compileSetup (Compiler.fresh typeMap)).insert (.intCast (.constInt 64 1) 32 true) with
          env := some (.mk 0 [("x", .inst 1)] none) }) =
      (.ok (.inst 1), Compiler.enterScope^[2]
        { (compileSetup (Compiler.fresh typeMap)).insert (.intCast (.constInt 64 1) 32 true) with
          env := some (.mk 0 [("x", .inst 1)] none) }) :=
  ⟨by decide, rfl,
    (variable_after_let_is_cast_value "x" .I32 32 true (.IntExpression 1)
      (compileSetup (Compiler.fresh typeMap))
      { (compileSetup (Compiler.fresh typeMap)).insert (.intCast (.constInt 64 1) 32 true) with
        env := some (.mk 0 [("x", .inst 1)] none) }
      (.inst 1) (by simp) (by decide) rfl).2 2⟩

theorem Environment.get_unbound (y : String) : ∀ (env : Environment),
    (∀ vs ∈ env.scopes, ∀ p ∈ vs, p.1 ≠ y) → env.get y = .error (.UnboundNameError y)
  | .mk _ vs none, h => by
    have hl : vs.lookup y = none := by
      rw [List.lookup_eq_none_iff]
      intro p hp
      simpa [bne_iff_ne, ne_comm] using h vs (by simp [Environment.scopes]) p hp
    simp [Environment.get, hl]
  | .mk _ vs (some outer), h => by
    have hl : vs.lookup y = none := by
      rw [List.lookup_eq_none_iff]
      intro p hp
      simpa [bne_iff_ne, ne_comm] using h vs (by simp [Environment.scopes]) p hp
    have ih := Environment.get_unbound y outer
      (fun ws hws => h ws (by simp [Environment.scopes, hws]))
    simp [Environment.get, hl, ih]

/-- C9: with a scope chain in which no scope binds `y`, lowering
`Variable(y)` fails with `UnboundNameError`, returns no value, and leaves the
state, hence the emission trace, unchanged. -/
theorem unbound_variable_fails (y : String) (c : Compiler) (env : Environment)
    (henv : c.env = some env) (hno : ∀ vs ∈ env.scopes, ∀ p ∈ vs, p.1 ≠ y) :
    visitExpr (.VarExpression y) c = (.error (.UnboundNameError y), c) ∧
    emitted c (visitExpr (.VarExpression y) c).2 = [] := by
  have hr : visitExpr (.VarExpression y) c = (.error (.UnboundNameError y), c) := by
    rw [visitExpr_var, henv]
    simp [envGet, Environment.get_unbound y env hno]
  exact ⟨hr, by rw [hr]; exact emitted_self c⟩

theorem unbound_variable_fails_witness :
    (∀ vs ∈ (Environment.mk 1 [("x", .inst 2)] (some (.mk 0 [("z", .inst 1)] none))).scopes,
      ∀ p ∈ vs, p.1 ≠ "y") ∧
    visitExpr (.VarExpression "y")
        { compileSetup (Compiler.fresh typeMap) with
          env := some (.mk 1 [("x", .inst 2)] (some (.mk 0 [("z", .inst 1)] none))) } =
      (.error (.UnboundNameError "y"),
        { compileSetup (Compiler.fresh typeMap) with
          env := some (.mk 1 [("x", .inst 2)] (some (.mk 0 [("z", .inst 1)] none))) }) :=
  ⟨by decide,
    (unbound_variable_fails "y"
      { compileSetup (Compiler.fresh typeMap) with
        env := some (.mk 1 [("x", .inst 2)] (some (.mk 0 [("z", .inst 1)] none))) }
      (.mk 1 [("x", .inst 2)] (some (.mk 0 [("z", .inst 1)] none))) rfl (by decide)).1⟩

/-! ## Driver -/

theorem compileSetup_trace (c : Compiler) :
    (compileSetup c).trace = c.trace ++
      [.declareFunction "printf" "i32" ["i8*"] true, .declareFunction "main" "void" [] false,
       .createBlock c.nextId "entry" true, .setInsertPoint c.nextId] := by
  simp [compileSetup, Compiler.createFunction, Compiler.createBlock, Compiler.setInsertPoint]

/-- C10: when the statement list lowers, the lowering phase of `compile`
emits, in this order: the declaration of `printf`; the function `main`, its
entry block, and the insertion point set to that block; the traces of the
top-level statements in list order, each lowered from the state the previous
one left and with the one global scope current; and one `ret void` in the
insertion block left by the last statement, which is the last emission. -/
theorem compile_emission_order (statements : List Statement) (c c1 : Compiler) (v : Value)
    (h : visitStmts statements (compileSetup c) = (.ok v, c1)) :
    compile statements c = (.ok (), c1.insert .retVoid) ∧
    (compile statements c).2.trace = c.trace ++
      [.declareFunction "printf" "i32" ["i8*"] true, .declareFunction "main" "void" [] false,
       .createBlock c.nextId "entry" true, .setInsertPoint c.nextId] ++
      stmtTraces statements (compileSetup c) ++
      [.instruction c1.insertBlock c1.nextId .retVoid] ∧
    (compileSetup c).insertBlock = some c.nextId ∧
    (compileSetup c).mainBlocks = [c.nextId] ∧
    (compileSetup c).functions = c.functions ++ ["printf", "main"] ∧
    (∀ ci ∈ statesBefore statements (compileSetup c), SameScope c.env ci.env) ∧
    SameScope c.env (compile statements c).2.env := by
  have hres : compile statements c = (.ok (), c1.insert .retVoid) := by
    rw [compile, h]
  have htr := visitStmts_trace statements (compileSetup c)
  have hst := stmtTraces_eq statements (compileSetup c) c1 v h
  have inv := visitStmts_inv statements (compileSetup c)
  rw [h] at htr inv; simp only at htr
  refine ⟨hres, ?_, rfl, ?_, ?_, statesBefore_scope statements (compileSetup c) c1 v h, ?_⟩
  · rw [hres]
    show c1.trace ++ [_] = _
    rw [htr, hst, compileSetup_trace]
  · simp [compileSetup, Compiler.createFunction, Compiler.createBlock, Compiler.setInsertPoint]
  · simp [compileSetup, Compiler.createFunction, Compiler.createBlock, Compiler.setInsertPoint]
  · rw [hres]
    exact inv.2.2 v rfl

theorem compile_emission_order_witness :
    visitStmts [.LetStatement "x" .I32 (.IntExpression 5), .PrintStatement (.VarExpression "x")]
        (compileSetup (Compiler.fresh typeMap)) =
      (.ok .null,
        { (((compileSetup (Compiler.fresh typeMap)).insert
            (.intCast (.constInt 64 5) 32 true)).createGlobalStringPtr "%d\n").insert
            (.call (some "printf") [.globalString 2, .inst 1] "printf") with
          env := some (.mk 0 [("x", .inst 1)] none) }) ∧
    (compile [.LetStatement "x" .I32 (.IntExpression 5), .PrintStatement (.VarExpression "x")]
      (Compiler.fresh typeMap)).2.trace =
      (Compiler.fresh typeMap).trace ++
      [.declareFunction "printf" "i32" ["i8*"] true, .declareFunction "main" "void" [] false,
       .createBlock 0 "entry" true, .setInsertPoint 0] ++
      stmtTraces [.LetStatement "x" .I32 (.IntExpression 5),
        .PrintStatement (.VarExpression "x")] (compileSetup (Compiler.fresh typeMap)) ++
      [.instruction (some 0) 4 .retVoid] :=
  ⟨rfl,
    (compile_emission_order
      [.LetStatement "x" .I32 (.IntExpression 5), .PrintStatement (.VarExpression "x")]
      (Compiler.fresh typeMap)
      { (((compileSetup (Compiler.fresh typeMap)).insert
          (.intCast (.constInt 64 5) 32 true)).createGlobalStringPtr "%d\n").insert
          (.call (some "printf") [.globalString 2, .inst 1] "printf") with
        env := some (.mk 0 [("x", .inst 1)] none) }
      .null rfl).2.1⟩

/-! ## Scenario A -/

/-- C11 (as stated, refuted): lowering scenario A emits four instructions, of
kinds cast to 32-bit signed, cast to 32-bit signed, add, call, in this order.
This is not the claimed sequence: no add precedes the casts, and there is one
add, not two. -/
theorem scenario_a_is_not_the_claimed_sequence :
    (instructionsOf (emitted (compileSetup (Compiler.fresh typeMap))
      (visitStmts scenarioA (compileSetup (Compiler.fresh typeMap))).2)).map Instruction.kind =
      [.intCast 32 true, .intCast 32 true, .binary .Add, .call] ∧
    (instructionsOf (emitted (compileSetup (Compiler.fresh typeMap))
      (visitStmts scenarioA (compileSetup (Compiler.fresh typeMap))).2)).map Instruction.kind ≠
      scenarioAClaimedKinds := by
  refine ⟨by decide, by decide⟩

/-- C11 (amended): lowering scenario A returns and emits exactly: the cast of
the constant 2 to 32-bit signed (bound to `x`), the cast of the constant 3 to
32-bit signed (bound to `y`), the add of these two cast results, the format
string, and the display call carrying the format string and the result of the
add. -/
theorem scenario_a_emission_sequence :
    (visitStmts scenarioA (compileSetup (Compiler.fresh typeMap))).1 = .ok .null ∧
    emitted (compileSetup (Compiler.fresh typeMap))
      (visitStmts scenarioA (compileSetup (Compiler.fresh typeMap))).2 =
      [.instruction (some 0) 1 (.intCast (.constInt 64 2) 32 true),
       .instruction (some 0) 2 (.intCast (.constInt 64 3) 32 true),
       .instruction (some 0) 3 (.binary .Add (.inst 1) (.inst 2) "addtmp"),
       .globalStringPtr 4 "%d\n",
       .instruction (some 0) 5 (.call (some "printf") [.globalString 4, .inst 3] "printf")] ∧
    envGet (visitStmts scenarioA (compileSetup (Compiler.fresh typeMap))).2.env "x" =
      .ok (.inst 1) ∧
    envGet (visitStmts scenarioA (compileSetup (Compiler.fresh typeMap))).2.env "y" =
      .ok (.inst 2) := by
  refine ⟨rfl, by decide, rfl, rfl⟩

/-! ## Operator coverage -/

theorem visitExpr_binary_ok (l r : Expression) (op : TokenTypes) (kind : BinaryKind)
    (name : String) (c c1 c2 : Compiler) (left right : Value)
    (hk : binaryCase op = some (kind, name))
    (hl : visitExpr l c = (.ok left, c1)) (hr : visitExpr r c1 = (.ok right, c2)) :
    visitExpr (.BinaryExpression l op r) c =
      (.ok (.inst c2.nextId), c2.insert (.binary kind left right name)) := by
  rw [visitExpr, hl]; simp only; rw [hr]; simp only; rw [hk]

theorem binaryCase_handled (op : TokenTypes) (h : op ∈ handledOperators) :
    ∃ kind name, binaryCase op = some (kind, name) := by
  simp only [handledOperators, List.mem_cons, List.mem_singleton, List.not_mem_nil,
    or_false] at h
  rcases h with h | h | h | h | h | h | h | h | h | h <;> subst h <;> exact ⟨_, _, rfl⟩

theorem binaryCase_injective (op1 op2 : TokenTypes) (k : BinaryKind) (n1 n2 : String)
    (h1 : binaryCase op1 = some (k, n1)) (h2 : binaryCase op2 = some (k, n2)) : op1 = op2 := by
  cases op1 <;> cases op2 <;> simp [binaryCase] at h1 h2 <;>
    first
      | rfl
      | (obtain ⟨rfl, _⟩ := h1; simp at h2)

/-- C12: for two of the ten operators, when the operands lower to `left` and
`right`, the two Binary nodes each emit one instruction on `(left, right)`;
the two instruction kinds are equal only if the operators are equal, and the
kind emitted for `/` is not the kind emitted for any comparison. -/
theorem binary_kinds_are_distinct (op1 op2 : TokenTypes) (l r : Expression)
    (c c1 c2 : Compiler) (left right : Value)
    (h1 : op1 ∈ handledOperators) (h2 : op2 ∈ handledOperators)
    (hl : visitExpr l c = (.ok left, c1)) (hr : visitExpr r c1 = (.ok right, c2)) :
    ∃ k1 n1 k2 n2,
      visitExpr (.BinaryExpression l op1 r) c =
        (.ok (.inst c2.nextId), c2.insert (.binary k1 left right n1)) ∧
      visitExpr (.BinaryExpression l op2 r) c =
        (.ok (.inst c2.nextId), c2.insert (.binary k2 left right n2)) ∧
      (k1 = k2 → op1 = op2) ∧
      (op1 = .SLASH → op2 ∈ comparisonOperators → k1 ≠ k2) := by
  obtain ⟨k1, n1, hk1⟩ := binaryCase_handled op1 h1
  obtain ⟨k2, n2, hk2⟩ := binaryCase_handled op2 h2
  refine ⟨k1, n1, k2, n2, visitExpr_binary_ok l r op1 k1 n1 c c1 c2 left right hk1 hl hr,
    visitExpr_binary_ok l r op2 k2 n2 c c1 c2 left right hk2 hl hr, ?_, ?_⟩
  · intro hk
    subst hk
    exact binaryCase_injective op1 op2 k1 n1 n2 hk1 hk2
  · intro hs hc hk
    subst hk
    have := binaryCase_injective op1 op2 k1 n1 n2 hk1 hk2
    subst this hs
    simp [comparisonOperators] at hc

theorem binary_kinds_are_distinct_witness :
    TokenTypes.SLASH ∈ handledOperators ∧ TokenTypes.LESS ∈ handledOperators ∧
    visitExpr (.IntExpression 6) (compileSetup (Compiler.fresh typeMap)) =
      (.ok (.constInt 64 6), compileSetup (Compiler.fresh typeMap)) ∧
    visitExpr (.IntExpression 3) (compileSetup (Compiler.fresh typeMap)) =
      (.ok (.constInt 64 3), compileSetup (Compiler.fresh typeMap)) ∧
    ∃ k1 n1 k2 n2,
      visitExpr (.BinaryExpression (.IntExpression 6) .SLASH (.IntExpression 3))
          (compileSetup (Compiler.fresh typeMap)) =
        (.ok (.inst 1), (compileSetup (Compiler.fresh typeMap)).insert
          (.binary k1 (.constInt 64 6) (.constInt 64 3) n1)) ∧
      visitExpr (.BinaryExpression (.IntExpression 6) .LESS (.IntExpression 3))
          (compileSetup (Compiler.fresh typeMap)) =
        (.ok (.inst 1), (compileSetup (Compiler.fresh typeMap)).insert
          (.binary k2 (.constInt 64 6) (.constInt 64 3) n2)) ∧
      (k1 = k2 → TokenTypes.SLASH = TokenTypes.LESS) ∧
      (TokenTypes.SLASH = .SLASH → TokenTypes.LESS ∈ comparisonOperators → k1 ≠ k2) :=
  ⟨by decide, by decide, rfl, rfl,
    binary_kinds_are_distinct .SLASH .LESS (.IntExpression 6) (.IntExpression 3)
      (compileSetup (Compiler.fresh typeMap)) (compileSetup (Compiler.fresh typeMap))
      (compileSetup (Compiler.fresh typeMap)) (.constInt 64 6) (.constInt 64 3)
      (by decide) (by decide) rfl rfl⟩

/-! ## Print statements and literals -/

/-- C13: in a state whose module declares `printf` (as every state reached
through `compile` does), when the expression lowers to `value`, Print emits the
trace of the expression, then creates the format string "%d\n" and emits
exactly one call of `printf` with the arguments format string, `value`, in
this order; the current scope and the insertion block are unchanged. -/
theorem print_emits_one_display_call (e : Expression) (c c1 : Compiler) (value : Value)
    (hp : "printf" ∈ c.functions) (he : visitExpr e c = (.ok value, c1)) :
    (visitStmt (.PrintStatement e) c).1 = .ok .null ∧
    emitted c (visitStmt (.PrintStatement e) c).2 =
      emitted c c1 ++
        [.globalStringPtr c1.nextId "%d\n",
         .instruction c1.insertBlock (c1.nextId + 1)
           (.call (some "printf") [.globalString c1.nextId, value] "printf")] ∧
    (visitStmt (.PrintStatement e) c).2.env = c.env ∧
    (visitStmt (.PrintStatement e) c).2.insertBlock = c.insertBlock := by
  obtain ⟨t, n, _, hfr⟩ := visitExpr_frame e c
  rw [he] at hfr; simp only at hfr
  have hres : visitStmt (.PrintStatement e) c =
      (.ok .null, (c1.createGlobalStringPtr "%d\n").insert
        (.call (some "printf") [.globalString c1.nextId, value] "printf")) := by
    rw [visitStmt]; simp only; rw [he]; simp only [Compiler.getFunction, hp, if_true]
  rw [hres]
  refine ⟨rfl, ?_, ?_, ?_⟩
  · subst hfr
    simp [emitted, Compiler.insert, Compiler.createGlobalStringPtr]
  · subst hfr; rfl
  · subst hfr; rfl

theorem print_emits_one_display_call_witness :
    "printf" ∈ (compileSetup (Compiler.fresh typeMap)).functions ∧
    visitExpr (.IntExpression 7) (compileSetup (Compiler.fresh typeMap)) =
      (.ok (.constInt 64 7), compileSetup (Compiler.fresh typeMap)) ∧
    emitted (compileSetup (Compiler.fresh typeMap))
      (visitStmt (.PrintStatement (.IntExpression 7)) (compileSetup (Compiler.fresh typeMap))).2 =
      emitted (compileSetup (Compiler.fresh typeMap)) (compileSetup (Compiler.fresh typeMap)) ++
        [.globalStringPtr 1 "%d\n",
         .instruction (some 0) 2
           (.call (some "printf") [.globalString 1, .constInt 64 7] "printf")] :=
  ⟨by decide, rfl,
    (print_emits_one_display_call (.IntExpression 7) (compileSetup (Compiler.fresh typeMap))
      (compileSetup (Compiler.fresh typeMap)) (.constInt 64 7) (by decide) rfl).2.1⟩

/-- C14: for every 64-bit signed integer `v`, lowering `IntLiteral(v)` returns
a constant of bit width 64 whose bits read as a signed integer are `v`, and
leaves the state (trace, scope chain, insertion block) unchanged. -/
theorem int_literal_is_64_bit_constant (v : Int) (c : Compiler)
    (hlo : -(2 : Int) ^ 63 ≤ v) (hhi : v < (2 : Int) ^ 63) :
    ∃ bits : Nat, visitExpr (.IntExpression v) c = (.ok (.constInt 64 bits), c) ∧
      bits < 2 ^ 64 ∧ signedValue 64 bits = v ∧
      emitted c (visitExpr (.IntExpression v) c).2 = [] := by
  refine ⟨(v % 2 ^ 64).toNat, by rw [visitExpr], ?_, ?_, ?_⟩
  · have h1 : (0 : Int) ≤ v % 2 ^ 64 := Int.emod_nonneg _ (by norm_num)
    have h2 : v % 2 ^ 64 < 2 ^ 64 := Int.emod_lt_of_pos _ (by norm_num)
    omega
  · have h1 : (0 : Int) ≤ v % 2 ^ 64 := Int.emod_nonneg _ (by norm_num)
    have h2 : v % 2 ^ 64 < 2 ^ 64 := Int.emod_lt_of_pos _ (by norm_num)
    unfold signedValue
    by_cases hv : 0 ≤ v
    · have hm : v % 2 ^ 64 = v := Int.emod_eq_of_lt hv (by omega)
      rw [hm]
      have : v.toNat < 2 ^ (64 - 1) := by omega
      rw [if_pos this]
      omega
    · have hm : v % 2 ^ 64 = v + 2 ^ 64 := by
        have := Int.emod_eq_of_lt (a := v + 2 ^ 64) (b := 2 ^ 64) (by omega) (by omega)
        rw [← this]; simp
      rw [hm]
      have : ¬ (v + 2 ^ 64).toNat < 2 ^ (64 - 1) := by omega
      rw [if_neg this]
      omega
  · rw [visitExpr]; exact emitted_self c

theorem int_literal_is_64_bit_constant_witness :
    -(2 : Int) ^ 63 ≤ -1 ∧ (-1 : Int) < (2 : Int) ^ 63 ∧
    ∃ bits : Nat, visitExpr (.IntExpression (-1)) (compileSetup (Compiler.fresh typeMap)) =
        (.ok (.constInt 64 bits), compileSetup (Compiler.fresh typeMap)) ∧
      bits < 2 ^ 64 ∧ signedValue 64 bits = -1 ∧
      emitted (compileSetup (Compiler.fresh typeMap))
        (visitExpr (.IntExpression (-1)) (compileSetup (Compiler.fresh typeMap))).2 = [] :=
  ⟨by decide, by decide,
    int_literal_is_64_bit_constant (-1) (compileSetup (Compiler.fresh typeMap))
      (by decide) (by decide)⟩

/-! ## Unhandled operators and the frame of expressions -/

theorem binaryCase_unhandled (op : TokenTypes) (h : op ∉ handledOperators) :
    binaryCase op = none := by
  cases op <;> first | rfl | (exfalso; exact h (by decide))

/-- C17: for an operator token that is not one of the ten handled operators,
when the operands lower to values, the Binary lowers the left operand, then
the right operand, emits nothing of its own, raises no error and returns the
null value. -/
theorem unhandled_operator_returns_null (l r : Expression) (op : TokenTypes)
    (c c1 c2 : Compiler) (left right : Value) (hop : op ∉ handledOperators)
    (hl : visitExpr l c = (.ok left, c1)) (hr : visitExpr r c1 = (.ok right, c2)) :
    visitExpr (.BinaryExpression l op r) c = (.ok .null, c2) ∧
    emitted c (visitExpr (.BinaryExpression l op r) c).2 = emitted c c1 ++ emitted c1 c2 := by
  have hres : visitExpr (.BinaryExpression l op r) c = (.ok .null, c2) := by
    rw [visitExpr, hl]; simp only; rw [hr]; simp only; rw [binaryCase_unhandled op hop]
  have h1 := visitExpr_trace l c
  have h2 := visitExpr_trace r c1
  rw [hl] at h1; rw [hr] at h2
  simp only at h1 h2
  refine ⟨hres, ?_⟩
  rw [hres]
  apply emitted_append
  rw [h2, h1, List.append_assoc]

theorem unhandled_operator_returns_null_witness :
    TokenTypes.I8 ∉ handledOperators ∧
    visitExpr (.IntExpression 1) (compileSetup (Compiler.fresh typeMap)) =
      (.ok (.constInt 64 1), compileSetup (Compiler.fresh typeMap)) ∧
    visitExpr (.BinaryExpression (.IntExpression 1) .PLUS (.IntExpression 2))
        (compileSetup (Compiler.fresh typeMap)) =
      (.ok (.inst 1), (compileSetup (Compiler.fresh typeMap)).insert
        (.binary .Add (.constInt 64 1) (.constInt 64 2) "addtmp")) ∧
    visitExpr (.BinaryExpression (.IntExpression 1) .I8
        (.BinaryExpression (.IntExpression 1) .PLUS (.IntExpression 2)))
        (compileSetup (Compiler.fresh typeMap)) =
      (.ok .null, (compileSetup (Compiler.fresh typeMap)).insert
        (.binary .Add (.constInt 64 1) (.constInt 64 2) "addtmp")) :=
  ⟨by decide, rfl, rfl,
    (unhandled_operator_returns_null (.IntExpression 1)
      (.BinaryExpression (.IntExpression 1) .PLUS (.IntExpression 2)) .I8
      (compileSetup (Compiler.fresh typeMap)) (compileSetup (Compiler.fresh typeMap))
      ((compileSetup (Compiler.fresh typeMap)).insert
        (.binary .Add (.constInt 64 1) (.constInt 64 2) "addtmp"))
      (.constInt 64 1) (.inst 1) (by decide) rfl rfl).1⟩

theorem visitExpr_bound (e : Expression) : ∀ (c : Compiler) (env : Environment),
    c.env = some env → (∀ x ∈ e.variables, ∃ v, env.get x = .ok v) →
    ∃ v t, visitExpr e c =
        (.ok v, { c with trace := c.trace ++ t, nextId := c.nextId + t.length }) ∧
      (∀ ev ∈ t, ∃ id k l r n, ev = .instruction c.insertBlock id (.binary k l r n)) ∧
      t.length = e.handledBinaryCount := by
  induction e with
  | IntExpression v =>
    intro c env _ _
    exact ⟨.constInt 64 (v % 2 ^ 64).toNat, [], by simp [visitExpr], by simp, rfl⟩
  | VarExpression name =>
    intro c env henv hb
    obtain ⟨v, hv⟩ := hb name (by simp [Expression.variables])
    refine ⟨v, [], ?_, by simp, rfl⟩
    rw [visitExpr, henv]
    simp [envGet, hv, ← henv]
  | BinaryExpression l op r ihl ihr =>
    intro c env henv hb
    obtain ⟨vl, tl, hl, hel, hnl⟩ := ihl c env henv
      (fun x hx => hb x (by simp [Expression.variables, hx]))
    obtain ⟨vr, tr, hr, her, hnr⟩ := ihr
      { c with trace := c.trace ++ tl, nextId := c.nextId + tl.length } env henv
      (fun x hx => hb x (by simp [Expression.variables, hx]))
    rw [visitExpr, hl]; simp only; rw [hr]; simp only
    by_cases hop : op ∈ handledOperators
    · obtain ⟨k, n, hk⟩ := binaryCase_handled op hop
      rw [hk]; simp only
      refine ⟨.inst (c.nextId + tl.length + tr.length), tl ++ tr ++ [.instruction c.insertBlock (c.nextId + tl.length + tr.length)
        (.binary k vl vr n)], ?_, ?_, ?_⟩
      · simp [Compiler.insert, Nat.add_assoc]
      · intro ev hev
        simp only [List.mem_append, List.mem_singleton] at hev
        rcases hev with (h | h) | h
        · exact hel ev h
        · exact her ev h
        · exact ⟨_, _, _, _, _, h⟩
      · simp [Expression.handledBinaryCount, hop, hnl, hnr, Nat.add_assoc]
    · rw [binaryCase_unhandled op hop]; simp only
      refine ⟨.null, tl ++ tr, ?_, ?_, ?_⟩
      · simp [Nat.add_assoc]
      · intro ev hev
        simp only [List.mem_append] at hev
        rcases hev with h | h
        · exact hel ev h
        · exact her ev h
      · simp [Expression.handledBinaryCount, hop, hnl, hnr]

/-- C18: lowering an expression all of whose variables are bound in the
current scope chain returns a value; everything it emits is a binary
instruction inserted in the insertion block (so it creates no basic block and
emits no branch or other terminator); the insertion block, the block list of
`main` and the scope chain with all its bindings are unchanged; and the number
of emissions is the number of Binary nodes with a handled operator. -/
theorem expression_lowering_frame (e : Expression) (c : Compiler) (env : Environment)
    (henv : c.env = some env) (hb : ∀ x ∈ e.variables, ∃ v, env.get x = .ok v) :
    (∃ v, (visitExpr e c).1 = .ok v) ∧
    (∀ ev ∈ emitted c (visitExpr e c).2,
      ∃ id k l r n, ev = .instruction c.insertBlock id (.binary k l r n)) ∧
    (emitted c (visitExpr e c).2).length = e.handledBinaryCount ∧
    (visitExpr e c).2.insertBlock = c.insertBlock ∧
    (visitExpr e c).2.mainBlocks = c.mainBlocks ∧
    (visitExpr e c).2.env = c.env := by
  obtain ⟨v, t, hres, hev, hn⟩ := visitExpr_bound e c env henv hb
  rw [hres]
  have hem : emitted c { c with trace := c.trace ++ t, nextId := c.nextId + t.length } = t :=
    emitted_append _ _ t rfl
  exact ⟨⟨v, rfl⟩, by rw [hem]; exact hev, by rw [hem]; exact hn, rfl, rfl, rfl⟩

theorem expression_lowering_frame_witness :
    (compileSetup { Compiler.fresh typeMap with
      env := some (.mk 0 [("x", .inst 9)] none) }).env = some (.mk 0 [("x", .inst 9)] none) ∧
    (∀ x ∈ (Expression.BinaryExpression (.BinaryExpression (.VarExpression "x") .STAR
        (.IntExpression 2)) .I8 (.IntExpression 3)).variables,
      ∃ v, (Environment.mk 0 [("x", .inst 9)] none).get x = .ok v) ∧
    (emitted (compileSetup { Compiler.fresh typeMap with
        env := some (.mk 0 [("x", .inst 9)] none) })
      (visitExpr (.BinaryExpression (.BinaryExpression (.VarExpression "x") .STAR
        (.IntExpression 2)) .I8 (.IntExpression 3))
        (compileSetup { Compiler.fresh typeMap with
          env := some (.mk 0 [("x", .inst 9)] none) })).2).length = 1 :=
  ⟨rfl, by simp [Expression.variables, Environment.get],
    (expression_lowering_frame
      (.BinaryExpression (.BinaryExpression (.VarExpression "x") .STAR (.IntExpression 2))
        .I8 (.IntExpression 3))
      (compileSetup { Compiler.fresh typeMap with env := some (.mk 0 [("x", .inst 9)] none) })
      (.mk 0 [("x", .inst 9)] none) rfl
      (by simp [Expression.variables, Environment.get])).2.2.1⟩

/-! ## Determinism of the driver -/

theorem tablesAgree_refl (tm : List (TokenTypes × (Nat × Bool))) : TablesAgree tm tm :=
  fun _ => rfl

theorem tablesAgree_trans {a b c : List (TokenTypes × (Nat × Bool))}
    (h1 : TablesAgree a b) (h2 : TablesAgree b c) : TablesAgree a c :=
  fun key => (h1 key).trans (h2 key)

theorem tablesAgree_symm {a b : List (TokenTypes × (Nat × Bool))}
    (h : TablesAgree a b) : TablesAgree b a :=
  fun key => (h key).symm

theorem typeMapIndex_agree (tm : List (TokenTypes × (Nat × Bool))) (key : TokenTypes) :
    TablesAgree tm (typeMapIndex tm key).2 := by
  intro k
  unfold typeMapIndex
  cases h : tm.lookup key with
  | some p => rfl
  | none =>
    simp only [List.lookup_append]
    cases hk : tm.lookup k with
    | some q => simp
    | none =>
      by_cases hkk : k = key
      · subst hkk; simp [List.lookup_cons]
      · have : (k == key) = false := by simpa using hkk
        simp [List.lookup_cons, this]

theorem typeMapIndex_congr {tm tm1 : List (TokenTypes × (Nat × Bool))} (key : TokenTypes)
    (h : TablesAgree tm tm1) :
    TablesAgree (typeMapIndex tm key).2 (typeMapIndex tm1 key).2 :=
  tablesAgree_trans (tablesAgree_symm (typeMapIndex_agree tm key))
    (tablesAgree_trans h (typeMapIndex_agree tm1 key))

theorem visitExpr_withTable (e : Expression) (tm : List (TokenTypes × (Nat × Bool))) :
    ∀ c : Compiler, visitExpr e (c.withTable tm) =
      ((visitExpr e c).1, (visitExpr e c).2.withTable tm) := by
  induction e with
  | IntExpression v => intro c; simp [visitExpr]
  | VarExpression name => intro c; simp [visitExpr, Compiler.withTable]
  | BinaryExpression l op r ihl ihr =>
    intro c
    rw [visitExpr, visitExpr, ihl c]
    rcases hl : visitExpr l c with ⟨err | left, c1⟩ <;> simp only
    rw [ihr c1]
    rcases hr : visitExpr r c1 with ⟨err | right, c2⟩ <;> simp only
    cases binaryCase op with
    | none => rfl
    | some kn => rfl

theorem visitExpr_typeMap (e : Expression) (c : Compiler) :
    (visitExpr e c).2.typeMap = c.typeMap := by
  obtain ⟨t, n, _, h⟩ := visitExpr_frame e c
  rw [h]

theorem runsAlike_expr (e : Expression) (c : Compiler) : RunsAlike (visitExpr e) c := by
  refine ⟨by rw [visitExpr_typeMap]; exact tablesAgree_refl _, fun tm1 h => ⟨tm1, ?_, ?_⟩⟩
  · exact visitExpr_withTable e tm1 c
  · rw [visitExpr_typeMap]; exact h

theorem runsAlike_bind (f g : Compiler → Result) (k : Compiler → Value → Compiler → Result)
    (c : Compiler)
    (hg : ∀ d, g d = match f d with
      | (.error e, d1) => (.error e, d1)
      | (.ok v, d1) => k d v d1)
    (hkc : ∀ tm, k (c.withTable tm) = k c)
    (hf : RunsAlike f c) (hk : ∀ v c1, f c = (.ok v, c1) → RunsAlike (k c v) c1) :
    RunsAlike g c := by
  obtain ⟨hf1, hf2⟩ := hf
  rcases hfc : f c with ⟨err | v, c1⟩
  · rw [hfc] at hf1 hf2
    refine ⟨by rw [hg, hfc]; exact hf1, fun tm1 h => ?_⟩
    obtain ⟨tm2, h2, h3⟩ := hf2 tm1 h
    exact ⟨tm2, by rw [hg, hg, h2, hfc], by rw [hg, hfc]; exact h3⟩
  · rw [hfc] at hf1 hf2
    obtain ⟨hk1, hk2⟩ := hk v c1 hfc
    refine ⟨by rw [hg, hfc]; exact tablesAgree_trans hf1 hk1, fun tm1 h => ?_⟩
    obtain ⟨tm2, h2, h3⟩ := hf2 tm1 h
    obtain ⟨tm3, h4, h5⟩ := hk2 tm2 h3
    exact ⟨tm3, by rw [hg, hg, h2, hfc, hkc]; exact h4, by rw [hg, hfc]; exact h5⟩

theorem runsAlike_of_commute (f : Compiler → Result) (c : Compiler)
    (h1 : ∀ tm, f (c.withTable tm) = ((f c).1, (f c).2.withTable tm))
    (h2 : (f c).2.typeMap = c.typeMap) : RunsAlike f c :=
  ⟨by rw [h2]; exact tablesAgree_refl _, fun tm1 h => ⟨tm1, h1 tm1, by rw [h2]; exact h⟩⟩

theorem runsAlike_precompose (f : Compiler → Result) (p : Compiler → Compiler) (c : Compiler)
    (hp : ∀ tm, p (c.withTable tm) = (p c).withTable tm) (hpt : (p c).typeMap = c.typeMap)
    (h : RunsAlike f (p c)) : RunsAlike (fun d => f (p d)) c := by
  obtain ⟨h1, h2⟩ := h
  rw [hpt] at h1 h2
  exact ⟨h1, fun tm1 ha => by
    obtain ⟨tm2, h3, h4⟩ := h2 tm1 ha
    exact ⟨tm2, by simp only [hp]; exact h3, h4⟩⟩

theorem visitExpr_functions (e : Expression) (c : Compiler) :
    (visitExpr e c).2.functions = c.functions := by
  obtain ⟨t, n, _, h⟩ := visitExpr_frame e c
  rw [h]

theorem runsAlike_let (name : String) (type : TokenTypes) (e : Expression) (c : Compiler) :
    RunsAlike (visitStmt (.LetStatement name type e)) c := by
  have hform : ∀ d : Compiler, visitStmt (.LetStatement name type e) d =
      match visitExpr e d with
      | (.error err, c1) => (.error err, c1.withTable (typeMapIndex d.typeMap type).2)
      | (.ok value, c1) =>
        match c1.env with
        | none => (.error .NullEnvironment,
            (c1.insert (.intCast value (typeMapIndex d.typeMap type).1.1
              (typeMapIndex d.typeMap type).1.2)).withTable (typeMapIndex d.typeMap type).2)
        | some env => (.ok (.inst c1.nextId),
            { (c1.insert (.intCast value (typeMapIndex d.typeMap type).1.1
              (typeMapIndex d.typeMap type).1.2)).withTable (typeMapIndex d.typeMap type).2 with
              env := some (env.define name (.inst c1.nextId)) }) := by
    intro d
    rw [visitStmt]
    simp only
    have := visitExpr_withTable e (typeMapIndex d.typeMap type).2 d
    rw [show ({ d with typeMap := (typeMapIndex d.typeMap type).2 } : Compiler) =
      d.withTable (typeMapIndex d.typeMap type).2 from rfl, this]
    rcases visitExpr e d with ⟨err | value, c1⟩
    · rfl
    · simp only
      cases hc : c1.env with
      | none =>
        rw [show ((c1.withTable (typeMapIndex d.typeMap type).2).insert
          (.intCast value (typeMapIndex d.typeMap type).1.1
            (typeMapIndex d.typeMap type).1.2)).env = none from hc]
        rfl
      | some env =>
        rw [show ((c1.withTable (typeMapIndex d.typeMap type).2).insert
          (.intCast value (typeMapIndex d.typeMap type).1.1
            (typeMapIndex d.typeMap type).1.2)).env = some env from hc]
        rfl
  have hx := visitExpr_withTable e
  have hty := visitExpr_typeMap e c
  constructor
  · rw [hform]
    rcases visitExpr e c with ⟨err | value, c1⟩
    · exact typeMapIndex_agree _ _
    · simp only
      cases c1.env <;> exact typeMapIndex_agree _ _
  · intro tm1 h
    refine ⟨(typeMapIndex tm1 type).2, ?_, ?_⟩
    · rw [hform, hform, hx tm1 c]
      have h1 : (typeMapIndex (c.withTable tm1).typeMap type).1 = (typeMapIndex c.typeMap type).1 :=
        (h type).symm
      rw [h1]
      rcases visitExpr e c with ⟨err | value, c1⟩
      · rfl
      · simp only
        cases hc : c1.env with
        | none =>
          rw [show (c1.withTable tm1).env = none from hc]
          rfl
        | some env =>
          rw [show (c1.withTable tm1).env = some env from hc]
          rfl
    · rw [hform]
      rcases visitExpr e c with ⟨err | value, c1⟩
      · exact typeMapIndex_congr type h
      · simp only
        cases c1.env <;> exact typeMapIndex_congr type h

mutual
theorem visitStmt_alike : ∀ (s : Statement) (c : Compiler), RunsAlike (visitStmt s) c
  | .ExpressionStatement e, c => by
    have h := runsAlike_expr e c
    unfold RunsAlike at h ⊢
    simp only [visitStmt]
    exact h
  | .PrintStatement e, c => by
    refine runsAlike_bind (visitExpr e) _
      (fun d value d1 => (.ok .null, (d1.createGlobalStringPtr "%d\n").insert
        (.call (d.getFunction "printf") [.globalString d1.nextId, value] "printf")))
      c (fun d => by rw [visitStmt]) (fun tm => rfl) (runsAlike_expr e c) (fun v c1 _ => ?_)
    exact runsAlike_of_commute _ c1 (fun tm => rfl) rfl
  | .LetStatement name type e, c => runsAlike_let name type e c
  | .BlockStatement ss, c => by
    refine runsAlike_bind (fun d => visitStmts ss d.enterScope) _
      (fun _ _ d1 => match d1.env with
        | none => (.error .NullEnvironment, d1)
        | some env => (.ok .null, { d1 with env := env.enclosing }))
      c (fun d => by rw [visitStmt]) (fun tm => rfl)
      (runsAlike_precompose (visitStmts ss) Compiler.enterScope c (fun tm => rfl) rfl
        (visitStmts_alike ss c.enterScope))
      (fun v c1 _ => ?_)
    refine runsAlike_of_commute _ c1 (fun tm => ?_) ?_
    · beta_reduce
      rw [show (c1.withTable tm).env = c1.env from rfl]
      cases c1.env <;> rfl
    · beta_reduce
      cases c1.env <;> rfl
  | .IfStatement cond t e, c => by
    refine runsAlike_bind (visitExpr cond) _
      (fun _ condition c1 =>
        match visitStmt t (beginIf c1 condition) with
        | (.error err, c4) => (.error err, c4)
        | (.ok _, c4) =>
          match visitElse e (c1.nextId + 1) (c1.nextId + 2)
            (c4.insert (.br (c1.nextId + 2))) with
          | (.error err, c5) => (.error err, c5)
          | (.ok _, c5) =>
            (.ok .null, (c5.pushBlock (c1.nextId + 2)).setInsertPoint (c1.nextId + 2)))
      c (fun d => by rw [visitStmt]) (fun tm => rfl) (runsAlike_expr cond c)
      (fun condition c1 _ => ?_)
    refine runsAlike_bind (fun d => visitStmt t (beginIf d condition)) _
      (fun d _ c4 =>
        match visitElse e (d.nextId + 1) (d.nextId + 2) (c4.insert (.br (d.nextId + 2))) with
        | (.error err, c5) => (.error err, c5)
        | (.ok _, c5) =>
          (.ok .null, (c5.pushBlock (d.nextId + 2)).setInsertPoint (d.nextId + 2)))
      c1 (fun d => rfl) (fun tm => rfl)
      (runsAlike_precompose (visitStmt t) (fun d => beginIf d condition) c1 (fun tm => rfl) rfl
        (visitStmt_alike t (beginIf c1 condition)))
      (fun _ c4 _ => ?_)
    refine runsAlike_bind
      (fun d => visitElse e (c1.nextId + 1) (c1.nextId + 2) (d.insert (.br (c1.nextId + 2)))) _
      (fun _ _ c5 =>
        (.ok .null, (c5.pushBlock (c1.nextId + 2)).setInsertPoint (c1.nextId + 2)))
      c4 (fun d => rfl) (fun tm => rfl)
      (runsAlike_precompose (visitElse e (c1.nextId + 1) (c1.nextId + 2))
        (fun d => d.insert (.br (c1.nextId + 2))) c4 (fun tm => rfl) rfl
        (visitElse_alike e (c1.nextId + 1) (c1.nextId + 2) (c4.insert (.br (c1.nextId + 2)))))
      (fun _ c5 _ => ?_)
    exact runsAlike_of_commute _ c5 (fun tm => rfl) rfl
theorem visitElse_alike : ∀ (e : Option Statement) (eb mb : Nat) (c : Compiler),
    RunsAlike (visitElse e eb mb) c
  | none, eb, mb, c => by
    refine runsAlike_of_commute _ c (fun tm => ?_) ?_
    · rw [visitElse, visitElse]
    · rw [visitElse]
  | some s, eb, mb, c => by
    refine runsAlike_bind (fun d => visitStmt s (beginElse d eb)) _
      (fun _ _ c1 => (.ok .null, c1.insert (.br mb)))
      c (fun d => by rw [visitElse]) (fun tm => rfl)
      (runsAlike_precompose (visitStmt s) (fun d => beginElse d eb) c (fun tm => rfl) rfl
        (visitStmt_alike s (beginElse c eb)))
      (fun _ c1 _ => ?_)
    exact runsAlike_of_commute _ c1 (fun tm => rfl) rfl
theorem visitStmts_alike : ∀ (ss : List Statement) (c : Compiler), RunsAlike (visitStmts ss) c
  | [], c => by
    refine runsAlike_of_commute _ c (fun tm => ?_) ?_
    · rw [visitStmts, visitStmts]
    · rw [visitStmts]
  | s :: rest, c => by
    refine runsAlike_bind (visitStmt s) _ (fun _ _ c1 => visitStmts rest c1)
      c (fun d => by rw [visitStmts]) (fun tm => rfl) (visitStmt_alike s c)
      (fun _ c1 _ => visitStmts_alike rest c1)
end

theorem compile_typeMap (statements : List Statement) (c : Compiler) :
    (compile statements c).2.typeMap = (visitStmts statements (compileSetup c)).2.typeMap := by
  rw [compile]
  rcases visitStmts statements (compileSetup c) with ⟨err | v, c1⟩ <;> rfl

/-- C15: two runs of the driver on the same statement list, each from a fresh
compiler, the second one started with the process-wide type table as the first
run left it (with the entries its lookups inserted): both runs end the same
way (both return, or both fail with the same error) and their emission traces
and block lists are identical. -/
theorem compile_twice_same_emissions (statements : List Statement)
    (tm : List (TokenTypes × (Nat × Bool))) :
    (compile statements
      (Compiler.fresh (compile statements (Compiler.fresh tm)).2.typeMap)).1 =
      (compile statements (Compiler.fresh tm)).1 ∧
    (compile statements
      (Compiler.fresh (compile statements (Compiler.fresh tm)).2.typeMap)).2.trace =
      (compile statements (Compiler.fresh tm)).2.trace ∧
    (compile statements
      (Compiler.fresh (compile statements (Compiler.fresh tm)).2.typeMap)).2.mainBlocks =
      (compile statements (Compiler.fresh tm)).2.mainBlocks := by
  obtain ⟨hagree, hall⟩ := visitStmts_alike statements (compileSetup (Compiler.fresh tm))
  rw [compile_typeMap]
  obtain ⟨tm2, h2, _⟩ := hall _ hagree
  have hsetup : compileSetup (Compiler.fresh
      (visitStmts statements (compileSetup (Compiler.fresh tm))).2.typeMap) =
      (compileSetup (Compiler.fresh tm)).withTable
        (visitStmts statements (compileSetup (Compiler.fresh tm))).2.typeMap := rfl
  rw [compile, compile, hsetup, h2]
  rcases visitStmts statements (compileSetup (Compiler.fresh tm)) with ⟨err | v, c1⟩
  · exact ⟨rfl, rfl, rfl⟩
  · exact ⟨rfl, rfl, rfl⟩

/-! ## Basic blocks and terminators -/

theorem instructionsIn_append (t1 t2 : List Emission) (b : Nat) :
    instructionsIn (t1 ++ t2) b = instructionsIn t1 b ++ instructionsIn t2 b := by
  simp [instructionsIn, List.filterMap_append]

theorem branchTargets_append (t1 t2 : List Emission) :
    branchTargets (t1 ++ t2) = branchTargets t1 ++ branchTargets t2 := by
  induction t1 with
  | nil => rfl
  | cons ev rest ih =>
    cases ev with
    | instruction blk id i =>
      cases i <;> simp [branchTargets, ih]
    | _ => simp [branchTargets, ih]

theorem instructionsIn_empty_of_not_main {pending : List Nat} {current : Option Nat}
    {trace : List Emission} {mainBlocks : List Nat} {nextId : Nat}
    (h : Shape pending current trace mainBlocks nextId) (b : Nat) (hb : b ∉ mainBlocks) :
    instructionsIn trace b = [] := by
  unfold instructionsIn
  rw [List.filterMap_eq_nil_iff]
  intro ev hev
  cases ev with
  | instruction blk id i =>
    obtain ⟨b1, rfl, hb1⟩ := h.in_main blk id i hev
    have : b1 ≠ b := fun hh => hb (hh ▸ hb1)
    simp [this]
  | _ => rfl

theorem instructionsIn_plain (ev : Emission) (b : Nat)
    (hne : ∀ blk id i, ev ≠ .instruction blk id i) : instructionsIn [ev] b = [] := by
  cases ev with
  | instruction blk id i => exact absurd rfl (hne blk id i)
  | _ => rfl

theorem branchTargets_plain (ev : Emission)
    (hne : ∀ blk id i, ev ≠ .instruction blk id i) : branchTargets [ev] = [] := by
  cases ev with
  | instruction blk id i => exact absurd rfl (hne blk id i)
  | _ => rfl

theorem branchTargets_nonterminator (blk : Option Nat) (id : Nat) (i : Instruction)
    (hi : i.isTerminator = false) : branchTargets [.instruction blk id i] = [] := by
  cases i <;> simp_all [branchTargets, Instruction.isTerminator]

theorem instructionsIn_single (cur id : Nat) (i : Instruction) (b : Nat) :
    instructionsIn [.instruction (some cur) id i] b = if cur = b then [i] else [] := by
  by_cases h : cur = b <;> simp [instructionsIn, h]

theorem shape_mono {pending : List Nat} {current : Option Nat} {trace : List Emission}
    {mainBlocks : List Nat} {n m : Nat} (h : Shape pending current trace mainBlocks n)
    (hnm : n ≤ m) : Shape pending current trace mainBlocks m :=
  { h with
    main_lt := fun b hb => lt_of_lt_of_le (h.main_lt b hb) hnm
    pending_lt := fun b hb => lt_of_lt_of_le (h.pending_lt b hb) hnm }

theorem shape_append_plain {pending : List Nat} {current : Option Nat}
    {trace : List Emission} {mainBlocks : List Nat} {n : Nat}
    (h : Shape pending current trace mainBlocks n) (ev : Emission)
    (hne : ∀ blk id i, ev ≠ .instruction blk id i) :
    Shape pending current (trace ++ [ev]) mainBlocks n :=
  { h with
    in_main := fun blk id i hmem => by
      rw [List.mem_append, List.mem_singleton] at hmem
      rcases hmem with hmem | hmem
      · exact h.in_main blk id i hmem
      · exact absurd hmem.symm (hne blk id i)
    current_open := fun b hb => by
      rw [instructionsIn_append, instructionsIn_plain ev b hne, List.append_nil]
      exact h.current_open b hb
    others_closed := fun b hb hc => by
      rw [instructionsIn_append, instructionsIn_plain ev b hne, List.append_nil]
      exact h.others_closed b hb hc
    targets := fun t ht => by
      rw [branchTargets_append, branchTargets_plain ev hne, List.append_nil] at ht
      exact h.targets t ht }

theorem shape_add_pending {pending : List Nat} {current : Option Nat}
    {trace : List Emission} {mainBlocks : List Nat} {n : Nat}
    (h : Shape pending current trace mainBlocks n) (b : Nat) (hlt : b < n)
    (hmain : b ∉ mainBlocks) (hpend : b ∉ pending) :
    Shape (b :: pending) current trace mainBlocks n :=
  { h with
    pending_lt := fun p hp => by
      rcases List.mem_cons.1 hp with rfl | hp
      · exact hlt
      · exact h.pending_lt p hp
    pending_out := fun p hp => by
      rcases List.mem_cons.1 hp with rfl | hp
      · exact hmain
      · exact h.pending_out p hp
    pending_nodup := List.nodup_cons.2 ⟨hpend, h.pending_nodup⟩
    targets := fun t ht => by
      rcases h.targets t ht with h1 | h1
      · exact Or.inl h1
      · exact Or.inr (List.mem_cons_of_mem _ h1) }

theorem shape_insert_open {pending : List Nat} {cur : Nat} {trace : List Emission}
    {mainBlocks : List Nat} {n : Nat}
    (h : Shape pending (some cur) trace mainBlocks n) (id : Nat) (i : Instruction)
    (hi : i.isTerminator = false) :
    Shape pending (some cur) (trace ++ [.instruction (some cur) id i]) mainBlocks n :=
  { h with
    in_main := fun blk id1 i1 hmem => by
      rw [List.mem_append, List.mem_singleton] at hmem
      rcases hmem with hmem | hmem
      · exact h.in_main blk id1 i1 hmem
      · simp only [Emission.instruction.injEq] at hmem
        exact ⟨cur, hmem.1, h.current_in cur rfl⟩
    current_open := fun b hb j hj => by
      rw [instructionsIn_append, instructionsIn_single, List.mem_append] at hj
      rcases hj with hj | hj
      · exact h.current_open b hb j hj
      · by_cases hc : cur = b
        · rw [if_pos hc, List.mem_singleton] at hj
          rw [hj]; exact hi
        · rw [if_neg hc] at hj
          exact absurd hj (List.not_mem_nil _)
    others_closed := fun b hb hc => by
      have hne : cur ≠ b := fun hh => hc (by rw [hh])
      rw [instructionsIn_append, instructionsIn_single, if_neg hne, List.append_nil]
      exact h.others_closed b hb hc
    targets := fun t ht => by
      rw [branchTargets_append, branchTargets_nonterminator _ _ _ hi, List.append_nil] at ht
      exact h.targets t ht }

theorem shape_insert_terminator {pending : List Nat} {cur : Nat} {trace : List Emission}
    {mainBlocks : List Nat} {n : Nat}
    (h : Shape pending (some cur) trace mainBlocks n) (id : Nat) (i : Instruction)
    (hi : i.isTerminator = true)
    (ht : ∀ t ∈ branchTargets [.instruction (some cur) id i], t ∈ mainBlocks ∨ t ∈ pending) :
    Shape pending none (trace ++ [.instruction (some cur) id i]) mainBlocks n :=
  { h with
    in_main := fun blk id1 i1 hmem => by
      rw [List.mem_append, List.mem_singleton] at hmem
      rcases hmem with hmem | hmem
      · exact h.in_main blk id1 i1 hmem
      · simp only [Emission.instruction.injEq] at hmem
        exact ⟨cur, hmem.1, h.current_in cur rfl⟩
    current_in := fun b hb => by simp at hb
    current_open := fun b hb => by simp at hb
    others_closed := fun b hb _ => by
      rw [instructionsIn_append, instructionsIn_single]
      by_cases hc : cur = b
      · rw [if_pos hc]
        exact ⟨_, i, rfl, hi, h.current_open b (by rw [hc])⟩
      · rw [if_neg hc, List.append_nil]
        exact h.others_closed b hb (fun hh => hc (Option.some.inj hh))
    targets := fun t htm => by
      rw [branchTargets_append, List.mem_append] at htm
      rcases htm with htm | htm
      · exact h.targets t htm
      · exact ht t htm }

theorem shape_open_pending {pending : List Nat} {b : Nat} {trace : List Emission}
    {mainBlocks : List Nat} {n : Nat} (h : Shape (b :: pending) none trace mainBlocks n) :
    Shape pending (some b) trace (mainBlocks ++ [b]) n :=
  { main_lt := fun p hp => by
      rcases List.mem_append.1 hp with hp | hp
      · exact h.main_lt p hp
      · rw [List.mem_singleton] at hp
        rw [hp]; exact h.pending_lt b (List.mem_cons_self _ _)
    pending_lt := fun p hp => h.pending_lt p (List.mem_cons_of_mem _ hp)
    pending_out := fun p hp hmem => by
      rcases List.mem_append.1 hmem with hm | hm
      · exact h.pending_out p (List.mem_cons_of_mem _ hp) hm
      · rw [List.mem_singleton] at hm
        subst hm
        exact (List.nodup_cons.1 h.pending_nodup).1 hp
    pending_nodup := (List.nodup_cons.1 h.pending_nodup).2
    in_main := fun blk id i hmem => by
      obtain ⟨b1, h1, h2⟩ := h.in_main blk id i hmem
      exact ⟨b1, h1, List.mem_append_left _ h2⟩
    current_in := fun p hp => by
      rw [← Option.some.inj hp]; exact List.mem_append_right _ (List.mem_singleton_self _)
    current_open := fun p hp => by
      rw [← Option.some.inj hp,
        instructionsIn_empty_of_not_main h b (h.pending_out b (List.mem_cons_self _ _))]
      intro i hi
      exact absurd hi (List.not_mem_nil _)
    others_closed := fun p hp hc => by
      rcases List.mem_append.1 hp with hp | hp
      · exact h.others_closed p hp (by simp)
      · rw [List.mem_singleton] at hp
        exact absurd (by rw [hp]) hc
    targets := fun t ht => by
      rcases h.targets t ht with h1 | h1
      · exact Or.inl (List.mem_append_left _ h1)
      · rcases List.mem_cons.1 h1 with h2 | h2
        · exact Or.inl (by rw [h2]; exact List.mem_append_right _ (List.mem_singleton_self _))
        · exact Or.inr h2 }

theorem open_insert (pending : List Nat) (c : Compiler) (i : Instruction)
    (h : Open pending c) (hi : i.isTerminator = false) : Open pending (c.insert i) := by
  obtain ⟨cur, hcur, hs⟩ := h
  refine ⟨cur, hcur, ?_⟩
  show Shape pending (some cur) (c.trace ++ [.instruction c.insertBlock c.nextId i])
    c.mainBlocks (c.nextId + 1)
  rw [hcur]
  exact shape_mono (shape_insert_open hs _ _ hi) (Nat.le_succ _)

theorem open_createGlobalStringPtr (pending : List Nat) (c : Compiler) (str : String)
    (h : Open pending c) : Open pending (c.createGlobalStringPtr str) := by
  obtain ⟨cur, hcur, hs⟩ := h
  refine ⟨cur, hcur, ?_⟩
  show Shape pending (some cur) (c.trace ++ [.globalStringPtr c.nextId str])
    c.mainBlocks (c.nextId + 1)
  exact shape_mono (shape_append_plain hs _ (by intro _ _ _ hh; cases hh)) (Nat.le_succ _)

theorem sealed_insert (pending : List Nat) (c : Compiler) (i : Instruction)
    (h : Open pending c) (hi : i.isTerminator = true)
    (ht : ∀ t ∈ branchTargets [.instruction c.insertBlock c.nextId i],
      t ∈ c.mainBlocks ∨ t ∈ pending) :
    Shape pending none (c.insert i).trace (c.insert i).mainBlocks (c.insert i).nextId := by
  obtain ⟨cur, hcur, hs⟩ := h
  show Shape pending none (c.trace ++ [.instruction c.insertBlock c.nextId i])
    c.mainBlocks (c.nextId + 1)
  rw [hcur] at ht ⊢
  exact shape_mono (shape_insert_terminator hs _ _ hi ht) (Nat.le_succ _)

theorem open_beginElse (pending : List Nat) (c : Compiler) (b : Nat)
    (h : Shape (b :: pending) none c.trace c.mainBlocks c.nextId) :
    Open pending (beginElse c b) := by
  refine ⟨b, rfl, ?_⟩
  show Shape pending (some b) (c.trace ++ [.setInsertPoint b]) (c.mainBlocks ++ [b]) c.nextId
  exact shape_append_plain (shape_open_pending h) _ (by intro _ _ _ hh; cases hh)

theorem open_beginIf (pending : List Nat) (c : Compiler) (condition : Value)
    (h : Open pending c) :
    Open ((c.nextId + 1) :: (c.nextId + 2) :: pending) (beginIf c condition) := by
  obtain ⟨cur, hcur, hs⟩ := h
  refine ⟨c.nextId, rfl, ?_⟩
  have hmain : (beginIf c condition).mainBlocks = c.mainBlocks ++ [c.nextId] := by
    simp [beginIf, Compiler.createBlock, Compiler.insert, Compiler.setInsertPoint]
  have hnext : (beginIf c condition).nextId = c.nextId + 4 := by
    simp [beginIf, Compiler.createBlock, Compiler.insert, Compiler.setInsertPoint]
  rw [beginIf_trace, hmain, hnext, hcur]
  have s0 := shape_mono hs (show c.nextId ≤ c.nextId + 4 by omega)
  have s1 := shape_append_plain (shape_append_plain (shape_append_plain s0
    (.createBlock c.nextId "then" true) (by intro _ _ _ hh; cases hh))
    (.createBlock (c.nextId + 1) "else" false) (by intro _ _ _ hh; cases hh))
    (.createBlock (c.nextId + 2) "ifcont" false) (by intro _ _ _ hh; cases hh)
  have hm : ∀ k, c.nextId + k ∉ c.mainBlocks := fun k hk => by
    have := hs.main_lt _ hk; omega
  have hp : ∀ k, c.nextId + k ∉ pending := fun k hk => by
    have := hs.pending_lt _ hk; omega
  have s2 := shape_add_pending s1 (c.nextId + 2) (by omega) (hm 2) (hp 2)
  have s3 := shape_add_pending s2 (c.nextId + 1) (by omega) (hm 1)
    (by simp only [List.mem_cons, not_or]; exact ⟨by omega, hp 1⟩)
  have s4 := shape_add_pending s3 c.nextId (by omega) (hm 0)
    (by simp only [List.mem_cons, not_or]; exact ⟨by omega, by omega, hp 0⟩)
  have s5 := shape_insert_terminator s4 (c.nextId + 3)
    (.condBr condition c.nextId (c.nextId + 1)) rfl (by
      intro t ht
      simp only [branchTargets, List.mem_cons, List.not_mem_nil, or_false] at ht
      rcases ht with rfl | rfl
      · exact Or.inr (List.mem_cons_self _ _)
      · exact Or.inr (List.mem_cons_of_mem _ (List.mem_cons_self _ _)))
  have s6 := shape_append_plain (shape_open_pending s5) (.setInsertPoint c.nextId)
    (by intro _ _ _ hh; cases hh)
  simpa [List.append_assoc] using s6

theorem open_expr (pending : List Nat) (e : Expression) :
    ∀ c : Compiler, Open pending c → Open pending (visitExpr e c).2 := by
  induction e with
  | IntExpression v => intro c h; simpa [visitExpr] using h
  | VarExpression name => intro c h; simpa [visitExpr] using h
  | BinaryExpression l op r ihl ihr =>
    intro c h
    have h1 := ihl c h
    rw [visitExpr]
    rcases hl : visitExpr l c with ⟨err | left, c1⟩ <;> rw [hl] at h1 <;> simp only at h1 ⊢
    · exact h1
    · have h2 := ihr c1 h1
      rcases hr : visitExpr r c1 with ⟨err | right, c2⟩ <;> rw [hr] at h2 <;>
        simp only at h2 ⊢
      · exact h2
      · cases binaryCase op with
        | none => exact h2
        | some kn => exact open_insert pending c2 _ h2 rfl

mutual
theorem visitStmt_open : ∀ (s : Statement) (c : Compiler) (pending : List Nat) (v : Value)
    (c1 : Compiler), allIfsHaveElse s = true → Open pending c →
    visitStmt s c = (.ok v, c1) → Open pending c1
  | .ExpressionStatement e, c, pending, v, c1 => by
    intro _ ho h
    rw [visitStmt] at h
    have := open_expr pending e c ho
    rw [h] at this
    exact this
  | .PrintStatement e, c, pending, v, c1 => by
    intro _ ho h
    rw [visitStmt] at h
    have h1 := open_expr pending e c ho
    rcases he : visitExpr e c with ⟨err | value, c2⟩ <;> rw [he] at h h1 <;>
      simp only at h h1
    · simp at h
    · simp only [Prod.mk.injEq] at h
      rw [← h.2]
      exact open_insert pending _ _ (open_createGlobalStringPtr pending c2 _ h1) rfl
  | .LetStatement name type e, c, pending, v, c1 => by
    intro _ ho h
    obtain ⟨env, value, c2, _, he, _, hc1⟩ := visitStmt_let_inv name type e c c1 v h
    have h1 := open_expr pending e { c with typeMap := (typeMapIndex c.typeMap type).2 } ho
    rw [he] at h1
    rw [hc1]
    exact open_insert pending c2 _ h1 rfl
  | .BlockStatement ss, c, pending, v, c1 => by
    intro hE ho h
    obtain ⟨v2, c2, env, hss, _, _, _, hc1⟩ := visitStmt_block_inv ss c c1 v h
    rw [allIfsHaveElse] at hE
    have h1 := visitStmts_open ss c.enterScope pending v2 c2 hE ho hss
    rw [hc1]
    exact h1
  | .IfStatement cond t none, c, pending, v, c1 => by
    intro hE _ _
    simp [allIfsHaveElse] at hE
  | .IfStatement cond t (some s), c, pending, v, c1 => by
    intro hE ho h
    simp only [allIfsHaveElse, Bool.and_eq_true] at hE
    rw [visitStmt] at h
    have hc := open_expr pending cond c ho
    rcases hcond : visitExpr cond c with ⟨err | condition, c2⟩ <;> rw [hcond] at h hc <;>
      simp only at h hc
    · simp at h
    · have hb := open_beginIf pending c2 condition hc
      rcases ht : visitStmt t (beginIf c2 condition) with ⟨err | v4, c4⟩ <;> rw [ht] at h <;>
        simp only at h
      · simp at h
      · have h4 := visitStmt_open t (beginIf c2 condition) _ v4 c4 hE.1 hb ht
        have h5 := sealed_insert _ c4 (.br (c2.nextId + 2)) h4 rfl (by
          intro x hx
          simp only [branchTargets, List.mem_singleton] at hx
          subst hx
          exact Or.inr (List.mem_cons_of_mem _ (List.mem_cons_self _ _)))
        have h6 := open_beginElse _ (c4.insert (.br (c2.nextId + 2))) (c2.nextId + 1) h5
        rw [visitElse] at h
        rcases hs : visitStmt s (beginElse (c4.insert (.br (c2.nextId + 2))) (c2.nextId + 1))
          with ⟨err | v6, c6⟩ <;> rw [hs] at h <;> simp only at h
        · simp at h
        · have h7 := visitStmt_open s _ _ v6 c6 hE.2 h6 hs
          have h8 := sealed_insert _ c6 (.br (c2.nextId + 2)) h7 rfl (by
            intro x hx
            simp only [branchTargets, List.mem_singleton] at hx
            subst hx
            exact Or.inr (List.mem_cons_self _ _))
          have h9 := open_beginElse _ (c6.insert (.br (c2.nextId + 2))) (c2.nextId + 2) h8
          simp only [Prod.mk.injEq] at h
          rw [← h.2]
          exact h9
theorem visitStmts_open : ∀ (ss : List Statement) (c : Compiler) (pending : List Nat)
    (v : Value) (c1 : Compiler), allIfsHaveElseList ss = true → Open pending c →
    visitStmts ss c = (.ok v, c1) → Open pending c1
  | [], c, pending, v, c1 => by
    intro _ ho h
    rw [visitStmts] at h
    simp only [Prod.mk.injEq] at h
    rw [← h.2]; exact ho
  | s :: rest, c, pending, v, c1 => by
    intro hE ho h
    simp only [allIfsHaveElseList, Bool.and_eq_true] at hE
    rw [visitStmts] at h
    rcases hs : visitStmt s c with ⟨err | v2, c2⟩ <;> rw [hs] at h <;> simp only at h
    · simp at h
    · exact visitStmts_open rest c2 pending v c1 hE.2
        (visitStmt_open s c pending v2 c2 hE.1 ho hs) h
end

theorem closed_one_terminator (is : List Instruction) (h : Closed is) :
    (is.filter Instruction.isTerminator).length = 1 ∧
    ∃ last, is.getLast? = some last ∧ last.isTerminator = true := by
  obtain ⟨body, last, rfl, hl, hb⟩ := h
  have hf : body.filter Instruction.isTerminator = [] := by
    rw [List.filter_eq_nil_iff]
    intro i hi
    simp [hb i hi]
  refine ⟨by simp [List.filter_append, hf, hl], last, by simp, hl⟩

theorem closed_before_last (is pre post : List Instruction) (i : Instruction)
    (h : Closed is) (hs : is = pre ++ i :: post) : ∀ j ∈ pre, j.isTerminator = false := by
  obtain ⟨body, last, rfl, _, hb⟩ := h
  intro j hj
  rcases List.append_eq_append_iff.1 hs with ⟨a, h1, h2⟩ | ⟨a, h1, h2⟩
  · -- `pre = body ++ a`, `[last] = a ++ i :: post`
    have hlen := congrArg List.length h2
    rw [List.length_singleton, List.length_append, List.length_cons] at hlen
    have ha : a = [] := List.length_eq_zero.1 (by omega)
    subst ha
    rw [List.append_nil] at h1
    exact hb j (h1 ▸ hj)
  · exact hb j (by rw [h1]; exact List.mem_append_left _ hj)

theorem sealed_no_late_insertion {trace : List Emission} {mainBlocks : List Nat} {n : Nat}
    (h : Shape [] none trace mainBlocks n) (pre post : List Emission) (blk : Option Nat)
    (id : Nat) (i : Instruction) (hs : trace = pre ++ .instruction blk id i :: post) :
    ∃ b, blk = some b ∧ ∀ j ∈ instructionsIn pre b, j.isTerminator = false := by
  obtain ⟨b, hb, hmain⟩ := h.in_main blk id i (by rw [hs]; simp)
  refine ⟨b, hb, ?_⟩
  have hc := h.others_closed b hmain (by simp)
  subst hb
  refine closed_before_last _ (instructionsIn pre b) (instructionsIn post b) i hc ?_
  rw [hs, instructionsIn_append]
  simp [instructionsIn]

theorem statesBefore_open : ∀ (ss : List Statement) (c c1 : Compiler) (v : Value),
    allIfsHaveElseList ss = true → Open [] c → visitStmts ss c = (.ok v, c1) →
    ∀ ci ∈ statesBefore ss c, Open [] ci
  | [], _, _, _ => by simp [statesBefore]
  | s :: rest, c, c1, v => by
    intro hE ho h ci hci
    simp only [allIfsHaveElseList, Bool.and_eq_true] at hE
    rw [visitStmts] at h
    rcases hs : visitStmt s c with ⟨err | v2, c2⟩ <;> rw [hs] at h <;> simp only at h
    · simp at h
    · simp only [statesBefore, hs, List.mem_cons] at hci
      rcases hci with rfl | hci
      · exact ho
      · exact statesBefore_open rest c2 c1 v hE.2 (visitStmt_open s c [] v2 c2 hE.1 ho hs) h
          ci hci

theorem open_compileSetup (tm : List (TokenTypes × (Nat × Bool))) :
    Open [] (compileSetup (Compiler.fresh tm)) := by
  refine ⟨0, rfl, ?_⟩
  show Shape [] (some 0)
    [.declareFunction "printf" "i32" ["i8*"] true, .declareFunction "main" "void" [] false,
     .createBlock 0 "entry" true, .setInsertPoint 0] [0] 1
  exact
    { main_lt := by simp
      pending_lt := by simp
      pending_out := by simp
      pending_nodup := List.nodup_nil
      in_main := by simp
      current_in := by simp
      current_open := by simp [instructionsIn]
      others_closed := by simp
      targets := by simp [branchTargets] }

theorem open_insertion_block (pending : List Nat) (c : Compiler) (h : Open pending c) :
    ∃ b, c.insertBlock = some b ∧ ∀ j ∈ blockInstructions c b, j.isTerminator = false := by
  obtain ⟨cur, hcur, hs⟩ := h
  exact ⟨cur, hcur, hs.current_open cur rfl⟩

mutual
theorem entryStates_open : ∀ (s : Statement) (c : Compiler) (pending : List Nat) (v : Value)
    (c1 : Compiler), allIfsHaveElse s = true → Open pending c →
    visitStmt s c = (.ok v, c1) → ∀ ci ∈ entryStates s c,
      ∃ b, ci.insertBlock = some b ∧ ∀ j ∈ blockInstructions ci b, j.isTerminator = false
  | .ExpressionStatement e, c, pending, v, c1 => by
    intro _ ho _ ci hci
    rw [entryStates, List.mem_singleton] at hci
    rw [hci]; exact open_insertion_block pending c ho
  | .PrintStatement e, c, pending, v, c1 => by
    intro _ ho _ ci hci
    rw [entryStates, List.mem_singleton] at hci
    rw [hci]; exact open_insertion_block pending c ho
  | .LetStatement name type e, c, pending, v, c1 => by
    intro _ ho _ ci hci
    rw [entryStates, List.mem_singleton] at hci
    rw [hci]; exact open_insertion_block pending c ho
  | .BlockStatement ss, c, pending, v, c1 => by
    intro hE ho h ci hci
    obtain ⟨v2, c2, env, hss, _, _, _, _⟩ := visitStmt_block_inv ss c c1 v h
    rw [allIfsHaveElse] at hE
    rw [entryStates, List.mem_cons] at hci
    rcases hci with rfl | hci
    · exact open_insertion_block pending _ ho
    · exact entryStatesList_open ss c.enterScope pending v2 c2 hE ho hss ci hci
  | .IfStatement cond t none, c, pending, v, c1 => by
    intro hE _ _
    simp [allIfsHaveElse] at hE
  | .IfStatement cond t (some s), c, pending, v, c1 => by
    intro hE ho h ci hci
    simp only [allIfsHaveElse, Bool.and_eq_true] at hE
    rw [visitStmt] at h
    rw [entryStates, List.mem_cons] at hci
    rcases hci with rfl | hci
    · exact open_insertion_block pending _ ho
    · have hc := open_expr pending cond c ho
      rcases hcond : visitExpr cond c with ⟨err | condition, c2⟩ <;>
        rw [hcond] at h hc hci <;> simp only at h hc hci
      · simp at h
      · have hb := open_beginIf pending c2 condition hc
        rcases ht : visitStmt t (beginIf c2 condition) with ⟨err | v4, c4⟩ <;>
          rw [ht] at h hci <;> simp only at h hci
        · simp at h
        · have h4 := visitStmt_open t (beginIf c2 condition) _ v4 c4 hE.1 hb ht
          have h5 := sealed_insert _ c4 (.br (c2.nextId + 2)) h4 rfl (by
            intro x hx
            simp only [branchTargets, List.mem_singleton] at hx
            subst hx
            exact Or.inr (List.mem_cons_of_mem _ (List.mem_cons_self _ _)))
          have h6 := open_beginElse _ (c4.insert (.br (c2.nextId + 2))) (c2.nextId + 1) h5
          rw [visitElse] at h
          rcases hs : visitStmt s (beginElse (c4.insert (.br (c2.nextId + 2))) (c2.nextId + 1))
            with ⟨err | v6, c6⟩ <;> rw [hs] at h <;> simp only at h
          · simp at h
          · rcases List.mem_append.1 hci with hci | hci
            · exact entryStates_open t (beginIf c2 condition) _ v4 c4 hE.1 hb ht ci hci
            · exact entryStates_open s _ _ v6 c6 hE.2 h6 hs ci hci
theorem entryStatesList_open : ∀ (ss : List Statement) (c : Compiler) (pending : List Nat)
    (v : Value) (c1 : Compiler), allIfsHaveElseList ss = true → Open pending c →
    visitStmts ss c = (.ok v, c1) → ∀ ci ∈ entryStatesList ss c,
      ∃ b, ci.insertBlock = some b ∧ ∀ j ∈ blockInstructions ci b, j.isTerminator = false
  | [], c, pending, v, c1 => by
    intro _ _ _ ci hci
    rw [entryStatesList] at hci
    exact absurd hci (List.not_mem_nil _)
  | s :: rest, c, pending, v, c1 => by
    intro hE ho h ci hci
    simp only [allIfsHaveElseList, Bool.and_eq_true] at hE
    rw [visitStmts] at h
    rw [entryStatesList] at hci
    rcases hs : visitStmt s c with ⟨err | v2, c2⟩ <;> rw [hs] at h hci <;> simp only at h hci
    · simp at h
    · rcases List.mem_append.1 hci with hci | hci
      · exact entryStates_open s c pending v2 c2 hE.1 ho hs ci hci
      · exact entryStatesList_open rest c2 pending v c1 hE.2
          (visitStmt_open s c pending v2 c2 hE.1 ho hs) h ci hci
end

/-- C16 (as stated, refuted): in the program `if 1 {} else {}`, whose If has an
else branch and whose lowering returns, the state right after the jump that
ends the then branch (line 126) is a point during lowering: lines 128-130 run
in it and the else part is lowered from it.  In that state the insertion block
is block 1, and block 1 holds the terminator `br 3`. -/
theorem insertion_block_holds_jump_after_then_branch :
    allIfsHaveElseList
      [.IfStatement (.IntExpression 1) (.BlockStatement []) (some (.BlockStatement []))] =
      true ∧
    (compile [.IfStatement (.IntExpression 1) (.BlockStatement [])
      (some (.BlockStatement []))] (Compiler.fresh typeMap)).1 = .ok () ∧
    ∃ st, afterThenJump (.IntExpression 1) (.BlockStatement [])
        (compileSetup (Compiler.fresh typeMap)) = some st ∧
      visitStmt (.IfStatement (.IntExpression 1) (.BlockStatement [])
          (some (.BlockStatement []))) (compileSetup (Compiler.fresh typeMap)) =
        (match visitElse (some (.BlockStatement [])) 2 3 st with
          | (.error err, c5) => (.error err, c5)
          | (.ok _, c5) => (.ok .null, (c5.pushBlock 3).setInsertPoint 3)) ∧
      st.insertBlock = some 1 ∧
      blockInstructions st 1 = [.br 3] ∧
      (Instruction.br 3).isTerminator = true :=
  ⟨rfl, rfl, _, rfl, rfl, rfl, by decide, rfl⟩

/-- C16 (amended): for a program in which every If has an else branch, when the
lowering phase of `compile` returns from a fresh compiler: every block in the
block list of `main` holds exactly one terminator, and it is its last
instruction; every block named by a branch is in the block list; whenever an
instruction was inserted, the block it went to was the insertion block of that
moment and held no terminator yet; and whenever the lowering of a statement
begins, top-level or nested to any depth, the insertion block holds no
terminator. -/
theorem compiled_blocks_end_in_one_terminator (statements : List Statement)
    (tm : List (TokenTypes × (Nat × Bool))) (c1 : Compiler)
    (hE : allIfsHaveElseList statements = true)
    (h : compile statements (Compiler.fresh tm) = (.ok (), c1)) :
    (∀ b ∈ c1.mainBlocks,
      ((blockInstructions c1 b).filter Instruction.isTerminator).length = 1 ∧
      ∃ last, (blockInstructions c1 b).getLast? = some last ∧ last.isTerminator = true) ∧
    (∀ t ∈ branchTargets c1.trace, t ∈ c1.mainBlocks) ∧
    (∀ pre post blk id i, c1.trace = pre ++ .instruction blk id i :: post →
      ∃ b, blk = some b ∧ ∀ j ∈ instructionsIn pre b, j.isTerminator = false) ∧
    (∀ ci ∈ statesBefore statements (compileSetup (Compiler.fresh tm)),
      ∃ b, ci.insertBlock = some b ∧ ∀ j ∈ blockInstructions ci b, j.isTerminator = false) ∧
    (∀ ci ∈ entryStatesList statements (compileSetup (Compiler.fresh tm)),
      ∃ b, ci.insertBlock = some b ∧ ∀ j ∈ blockInstructions ci b, j.isTerminator = false) := by
  rw [compile] at h
  rcases hs : visitStmts statements (compileSetup (Compiler.fresh tm)) with ⟨err | v, c2⟩ <;>
    rw [hs] at h <;> simp only at h
  · simp at h
  · simp only [Prod.mk.injEq, true_and] at h
    have ho := visitStmts_open statements _ [] v c2 hE (open_compileSetup tm) hs
    have hsh := sealed_insert [] c2 .retVoid ho rfl (by simp [branchTargets])
    rw [h] at hsh
    refine ⟨fun b hb => closed_one_terminator _ (hsh.others_closed b hb (by simp)), ?_,
      fun pre post blk id i hp => sealed_no_late_insertion hsh pre post blk id i hp, ?_,
      entryStatesList_open statements _ [] v c2 hE (open_compileSetup tm) hs⟩
    · intro t ht
      rcases hsh.targets t ht with h1 | h1
      · exact h1
      · exact absurd h1 (List.not_mem_nil _)
    · intro ci hci
      obtain ⟨cur, hcur, hshape⟩ :=
        statesBefore_open statements _ c2 v hE (open_compileSetup tm) hs ci hci
      exact ⟨cur, hcur, hshape.current_open cur rfl⟩

theorem compiled_blocks_end_in_one_terminator_witness :
    allIfsHaveElseList [.LetStatement "x" .I32 (.IntExpression 5),
      .IfStatement (.BinaryExpression (.VarExpression "x") .LESS (.IntExpression 10))
        (.BlockStatement [.PrintStatement (.IntExpression 1)])
        (some (.BlockStatement [.PrintStatement (.IntExpression 0)]))] = true ∧
    (compile [.LetStatement "x" .I32 (.IntExpression 5),
      .IfStatement (.BinaryExpression (.VarExpression "x") .LESS (.IntExpression 10))
        (.BlockStatement [.PrintStatement (.IntExpression 1)])
        (some (.BlockStatement [.PrintStatement (.IntExpression 0)]))]
      (Compiler.fresh typeMap)).1 = .ok () ∧
    ∀ b ∈ (compile [.LetStatement "x" .I32 (.IntExpression 5),
      .IfStatement (.BinaryExpression (.VarExpression "x") .LESS (.IntExpression 10))
        (.BlockStatement [.PrintStatement (.IntExpression 1)])
        (some (.BlockStatement [.PrintStatement (.IntExpression 0)]))]
      (Compiler.fresh typeMap)).2.mainBlocks,
      ((blockInstructions (compile [.LetStatement "x" .I32 (.IntExpression 5),
        .IfStatement (.BinaryExpression (.VarExpression "x") .LESS (.IntExpression 10))
          (.BlockStatement [.PrintStatement (.IntExpression 1)])
          (some (.BlockStatement [.PrintStatement (.IntExpression 0)]))]
        (Compiler.fresh typeMap)).2 b).filter Instruction.isTerminator).length = 1 ∧
      ∃ last, (blockInstructions (compile [.LetStatement "x" .I32 (.IntExpression 5),
        .IfStatement (.BinaryExpression (.VarExpression "x") .LESS (.IntExpression 10))
          (.BlockStatement [.PrintStatement (.IntExpression 1)])
          (some (.BlockStatement [.PrintStatement (.IntExpression 0)]))]
        (Compiler.fresh typeMap)).2 b).getLast? = some last ∧ last.isTerminator = true :=
  ⟨rfl, rfl,
    (compiled_blocks_end_in_one_terminator
      [.LetStatement "x" .I32 (.IntExpression 5),
       .IfStatement (.BinaryExpression (.VarExpression "x") .LESS (.IntExpression 10))
         (.BlockStatement [.PrintStatement (.IntExpression 1)])
         (some (.BlockStatement [.PrintStatement (.IntExpression 0)]))]
      typeMap _ rfl rfl).1⟩

end LlvmLearning
